import Mathlib

/-!
Shallow embedding of the Gekr parser (src/gekr/Gekr.ts) and proofs about it.

The embedding follows the TypeScript source line by line:
* characters are `Char`, document content is `List Char`, indices are `Nat`;
* the mutable `LinkedList<Node>` with a cursor is modelled as a zipper
  `(before : List Node) × (rest : List Node)` where `before` is reversed and
  the cursor is the head of `rest`;
* the shared `GenericParser` cursor (index, line) and the `errors` array are
  threaded through a `ScanState`;
* recursion of the scanner (`parseBlock`) and of the per-pass rewrite loop is
  made total with an explicit fuel argument (the source loops are unbounded);
  all concrete claims are evaluated with ample fuel.

Helpers from the external comTypes dependency (`isWord`, `isNumber`,
`GenericParser.consume/readUntil/skipUntil`, `LinkedList`) are not part of this
repository's sources; they are embedded here with their standard semantics,
which the Gekr source visibly relies on.
-/

namespace Gekr

/-- Whitespace test, Gekr.ts lines 6-8 (space, tab, carriage return). -/
def isWhitespaceChar (c : Char) : Bool := c = ' ' || c = '\t' || c = '\r'

/-- Word-character test (comTypes `isWord`): ASCII letters, digits, underscore. -/
def isWordChar (c : Char) : Bool := c.isAlpha || c.isDigit || c = '_'

/-- Digit test (comTypes `isNumber`). -/
def isNumberChar (c : Char) : Bool := c.isDigit

/-- Hex-digit test, Gekr.ts lines 422-427. -/
def isHexChar (c : Char) : Bool :=
  isNumberChar c || (let l := c.toLower; 'a' ≤ l && l ≤ 'f')

/-- A range of characters in a document, Gekr.ts `Position` (document field
omitted: within a single `parse` run every position refers to the one parsed
document, so the `top.pos.document == pos.document` check at line 750 is
always true). -/
structure Position where
  line : Nat
  offset : Nat
  length : Nat
deriving DecidableEq, Repr

/-- Gekr.ts `Diagnostic` (lines 11-21): message plus position. -/
structure Diagnostic where
  message : String
  pos : Position
deriving DecidableEq, Repr

/-- Gekr.ts `Document` (lines 23-29). Content is kept as a character list. -/
structure Document where
  path : String
  content : List Char

/-- Value of a `number` node. `parseInt` on a digit run is an exact natural;
`parseFloat` results (fraction or exponent present) are kept symbolic as the
scanned source text, since no verified property depends on float values;
`parseInt("")` (a `0x`/`0b` prefix with no digits) is NaN. -/
inductive NumberValue where
  | num (n : Nat)
  | dec (src : String)
  | nan
deriving DecidableEq, Repr

/-- The syntax-tree node union, Gekr.ts `Node` (lines 83-118). -/
inductive Node where
  | root (children : List Node) (pos : Position)
  | block (children : List Node) (pos : Position)
  | group (children : List Node) (pos : Position)
  | tuple (children : List Node) (pos : Position)
  | ident (name : String) (pos : Position)
  | label (label : String) (target : Node) (pos : Position)
  | str (value : String) (fullLine : Bool) (pos : Position)
  | number (value : NumberValue) (pos : Position)
  | format (strings : List String) (values : List (List Node)) (pos : Position)
  | operator (token : String) (pos : Position)
  | separator (strong : Bool) (pos : Position)
  | labelOp (name : String) (pos : Position)
  | invocation (target : Node) (children : List Node) (block : Option Node) (pos : Position)
deriving Repr

/-- The `kind` discriminator string of a node, as in the TS tagged union. -/
def Node.kind : Node → String
  | .root .. => "root"
  | .block .. => "block"
  | .group .. => "group"
  | .tuple .. => "tuple"
  | .ident .. => "ident"
  | .label .. => "label"
  | .str .. => "string"
  | .number .. => "number"
  | .format .. => "format"
  | .operator .. => "operator"
  | .separator .. => "separator"
  | .labelOp .. => "label_op"
  | .invocation .. => "invocation"

/-- The `pos` field common to all node variants. -/
def Node.pos : Node → Position
  | .root _ p => p
  | .block _ p => p
  | .group _ p => p
  | .tuple _ p => p
  | .ident _ p => p
  | .label _ _ p => p
  | .str _ _ p => p
  | .number _ p => p
  | .format _ _ p => p
  | .operator _ p => p
  | .separator _ p => p
  | .labelOp _ p => p
  | .invocation _ _ _ p => p

/-- The `children` field of the variants that carry one (empty otherwise). -/
def Node.childrenOf : Node → List Node
  | .root cs _ => cs
  | .block cs _ => cs
  | .group cs _ => cs
  | .tuple cs _ => cs
  | .invocation _ cs _ _ => cs
  | _ => []

/-- Gekr.ts `isNodeTarget` (lines 124-126). -/
def isNodeTarget (n : Node) : Bool :=
  n.kind ≠ "operator" && n.kind ≠ "separator" && n.kind ≠ "label_op"

/-- A weak (newline-implied) separator node. -/
def isWeakSeparator : Node → Bool
  | .separator false _ => true
  | _ => false

/-- A strong (comma/colon) separator node. -/
def isStrongSeparator : Node → Bool
  | .separator true _ => true
  | _ => false

/-- An invocation node with an attached block (`token.value.block != null`,
Gekr.ts line 542). -/
def isInvocationWithBlock : Node → Bool
  | .invocation _ _ (some _) _ => true
  | _ => false

/-- Operator placement, Gekr.ts `OperatorBiding` (line 148). -/
inductive OperatorBinding where
  | pre
  | inf
  | post
deriving DecidableEq, Repr

/-- Gekr.ts `Operator` (lines 157-186). `emit` is the invocation-target name
or `none` (a `null` emit rule, reserved for custom operations); custom
node-factory emitters are not used by any claim and are not modelled. -/
structure Operator where
  token : String
  binding : OperatorBinding
  emit : Option String
deriving DecidableEq, Repr

/-- Gekr.ts `Operator.makeID` (lines 177-185). -/
def Operator.makeID (token : String) (binding : OperatorBinding) : String :=
  match binding with
  | .inf => "_" ++ token ++ "_"
  | .pre => token ++ "_"
  | .post => "_" ++ token

/-- The built-in parser operations, Gekr.ts classes `Operator`, `Invocation`,
`KeywordBinding`, `BlockBinding`, `Labeling` (an operation is a capability
`invoke` + optional `getCustomOperators`; the five built-ins are the
implementations present in the source). -/
inductive ParserOperation where
  | op (o : Operator)
  | invocation (type : String) (target : Option String)
  | keywordBinding
  | blockBinding
  | labeling
deriving Repr

/-- Gekr.ts `ARROW_OPERATOR` (line 244). -/
def ARROW_OPERATOR : Operator := ⟨"=>", .inf, none⟩

/-- Gekr.ts `ParserOperation.getCustomOperators` (lines 142-144) and
`BlockBinding.getCustomOperators` (lines 281-283). -/
def getCustomOperators : ParserOperation → List Operator
  | .blockBinding => [ARROW_OPERATOR]
  | _ => []

/-- Gekr.ts `getArithmeticOperators` (lines 305-319). -/
def getArithmeticOperators : List (List ParserOperation) :=
  [[.op ⟨"-", .pre, some "neg"⟩],
   [.op ⟨"*", .inf, some "mul"⟩, .op ⟨"/", .inf, some "div"⟩],
   [.op ⟨"+", .inf, some "add"⟩, .op ⟨"-", .inf, some "sub"⟩]]

/-- Gekr.ts `getVariableOperators` (lines 322-328). -/
def getVariableOperators : List (List ParserOperation) :=
  [[.op ⟨"=", .inf, some "<int>assign"⟩]]

/-- Gekr.ts `getDefaultOperations` (lines 331-350). -/
def getDefaultOperations : List (List ParserOperation) :=
  [[.op ⟨".", .inf, some "<int>access"⟩, .invocation "group" none, .invocation "tuple" (some "index")]]
    ++ getArithmeticOperators ++ getVariableOperators
    ++ [[.labeling], [.keywordBinding], [.blockBinding]]

/-- Set a key in an association list, JS `Map.set` semantics: replaces the
value in place if the key exists, otherwise appends. -/
def assocSet {α : Type} (l : List (String × α)) (k : String) (v : α) : List (String × α) :=
  match l with
  | [] => [(k, v)]
  | (k', v') :: r => if k' = k then (k, v) :: r else (k', v') :: assocSet r k v

/-- Deduplicate preserving first occurrences (`[...new Set(xs)]`). -/
def dedupFirst (l : List String) : List String :=
  l.foldl (fun acc t => if acc.contains t then acc else acc ++ [t]) []

/-- Stable insertion keeping a longest-first order (`x` goes after every
element at least as long, preserving original order among equal lengths -
JS stable `sort((a, b) => b.length - a.length)`). -/
def insertByLen (x : String) : List String → List String
  | [] => [x]
  | y :: r => if x.length ≤ y.length then y :: insertByLen x r else x :: y :: r

/-- Stable sort by descending length. -/
def sortByLenDesc (l : List String) : List String :=
  l.foldl (fun acc x => insertByLen x acc) []

/-- One grammar construction stage (Gekr.ts lines 384-400): plain operators go
to the operators list tagged with the stage index (their presentence), other
operations go to the stage's pass together with their custom operators. -/
def buildStage (i : Nat) : List ParserOperation → List ParserOperation × List (Operator × Nat)
  | [] => ([], [])
  | o :: rest =>
    let (pass, ops) := buildStage i rest
    match o with
    | .op oper => (pass, (oper, i) :: ops)
    | other => (other :: pass, (getCustomOperators other).map (fun x => (x, i)) ++ ops)

/-- Gekr.ts `Grammar` (lines 369-420). `operatorLookup` maps
`Operator.makeID token binding` to the emit name and presentence of the
operator (only operators with a non-null emit rule are entered, line 413). -/
structure Grammar where
  passes : List (List ParserOperation)
  operatorsList : List (Operator × Nat)
  definedTokens : List String
  operatorLookup : List (String × (String × Nat))
  definitionLookup : List (String × (Position → Node))

/-- Gekr.ts `Grammar` constructor (lines 381-419). -/
def Grammar.make (operations : List (List ParserOperation))
    (definitions : List (String × (Position → Node)) := []) : Grammar :=
  let stages := operations.enum.map (fun p => buildStage p.1 p.2)
  let passes := stages.map (·.1)
  let operatorsList := (stages.map (·.2)).flatten
  let definitionLookup := definitions.foldl (fun acc p => assocSet acc p.1 p.2) []
  let definedTokens :=
    sortByLenDesc (dedupFirst (operatorsList.map (fun p => p.1.token) ++ definitionLookup.map (·.1)))
  let operatorLookup := operatorsList.foldl (fun acc p =>
    match p.1.emit with
    | none => acc
    | some name => assocSet acc (Operator.makeID p.1.token p.1.binding) (name, p.2)) []
  ⟨passes, operatorsList, definedTokens, operatorLookup, definitionLookup⟩

/-- The arithmetic grammar of the README example. -/
def arith : Grammar := Grammar.make getArithmeticOperators

/-!
The rewrite engine (Gekr.ts `parse.processTokens`, lines 435-556).

The token `LinkedList` with its cursor is a zipper: `before` holds the nodes
left of the cursor in reverse order, `rest` is the cursor node followed by the
nodes right of it. `tokens.insert(iter, x)` inserts before the cursor
(cons onto `before`), `tokens.delete(...)` drops the corresponding element.
-/

/-- Whether the neighbor on one side makes a valid operand for fixity
determination (Gekr.ts lines 444-445): the adjacent node is a target, or it
is a weak separator and the node beyond it is a target. `side` lists nodes in
the order seen from the operator outward. -/
def hasTargetToward (side : List Node) : Bool :=
  match side with
  | [] => false
  | p :: ps =>
    isNodeTarget p ||
      (isWeakSeparator p && (match ps with
        | pp :: _ => isNodeTarget pp
        | [] => false))

/-- Consume one operand next to an operator (Gekr.ts lines 468-471, 477-487,
492-496): if the adjacent node is a separator it is deleted first, then the
node beyond it becomes the operand. The source uses non-null assertions here,
justified by the fixity guards; the `none` branches are unreachable under
them. -/
def takeOperand : List Node → Option (Node × List Node)
  | [] => none
  | s :: rest =>
    if s.kind = "separator" then
      match rest with
      | [] => none
      | t :: r => some (t, r)
    else some (s, rest)

/-- `Invocation.invoke` (Gekr.ts lines 190-210): at a node of kind `type`
preceded by a valid target, build an invocation. The source mutates the list
and returns `null`; the engine then advances past the consumed region, which
is the zipper returned here. -/
def invocationInvoke (ty : String) (target : Option String)
    (before : List Node) (cur : Node) (after : List Node) :
    Option (List Node × List Node) :=
  if cur.kind = ty then
    match before with
    | [] => none
    | p :: ps =>
      if isNodeTarget p then
        match target with
        | none => some ((.invocation p cur.childrenOf none p.pos) :: ps, after)
        | some t =>
          some ((.invocation (.ident t cur.pos) (p :: cur.childrenOf) none cur.pos) :: ps, after)
      else none
  else none

/-- The argument-collection loop of `KeywordBinding.invoke` (Gekr.ts lines
226-231): following siblings are consumed while each is a strong separator or
a valid target and not a block; non-separators become children. Returns the
collected children and the remaining siblings. -/
def collectArgsLoop : List Node → List Node × List Node
  | [] => ([], [])
  | e :: rest =>
    if (isStrongSeparator e || isNodeTarget e) && e.kind ≠ "block" then
      let (cs, r) := collectArgsLoop rest
      (if e.kind ≠ "separator" then e :: cs else cs, r)
    else ([], e :: rest)

/-- `KeywordBinding.invoke` (Gekr.ts lines 220-241). Declines when the cursor
is not an identifier, when the first following sibling is a strong separator
(line 228), or when no children were collected (line 233). On success the
returned cursor is the new invocation node. -/
def keywordInvoke (before : List Node) (cur : Node) (after : List Node) :
    Option (List Node × List Node) :=
  match cur with
  | .ident name pos =>
    match after with
    | [] => none
    | e :: _ =>
      if isStrongSeparator e then none
      else
        let (cs, rest) := collectArgsLoop after
        if cs.isEmpty then none
        else some (before, (.invocation (.ident name pos) cs none pos) :: rest)
  | _ => none

/-- `BlockBinding.invoke` (Gekr.ts lines 247-279). The target must be a
blockless invocation, an identifier, or a group; the next token must be a
block node, or a node of kind `operator` (the source checks only the kind,
line 259) followed by any node which then serves as the block. The source
finally returns `iter.next`, which after the deletions resumes iteration at
the nodes following the consumed material (`rest'` here). -/
def blockBindingInvoke (before : List Node) (cur : Node) (after : List Node) :
    Option (List Node × List Node) :=
  if (match cur with
      | .invocation _ _ none _ => true
      | .ident .. => true
      | .group .. => true
      | _ => false) then
    match after with
    | [] => none
    | spec :: rest =>
      let found : Option (Node × List Node) :=
        if spec.kind = "block" then some (spec, rest)
        else if spec.kind = "operator" then
          match rest with
          | [] => none
          | b :: r => some (b, r)
        else none
      match found with
      | none => none
      | some (b, r) =>
        match cur with
        | .ident n p => some ((.invocation (.ident n p) [] (some b) p) :: before, r)
        | .group cs p => some ((.invocation (.ident "<int>arrow" p) cs (some b) p) :: before, r)
        | .invocation t cs _ p => some ((.invocation t cs (some b) p) :: before, r)
        | _ => none
  else none

/-- `Labeling.invoke` (Gekr.ts lines 288-301): a `label_op` followed by a
valid non-label target becomes a `label` node; the returned cursor is the new
label node. -/
def labelingInvoke (before : List Node) (cur : Node) (after : List Node) :
    Option (List Node × List Node) :=
  match cur with
  | .labelOp name pos =>
    match after with
    | [] => none
    | t :: r =>
      if isNodeTarget t && t.kind ≠ "label" then
        some (before, (.label name t pos) :: r)
      else none
  | _ => none

/-- Dispatch of `ParserOperation.invoke`. A plain `Operator`'s invoke always
declines (Gekr.ts lines 158-160). -/
def invokeOp : ParserOperation → List Node → Node → List Node → Option (List Node × List Node)
  | .op _, _, _, _ => none
  | .invocation ty tgt, b, c, a => invocationInvoke ty tgt b c a
  | .keywordBinding, b, c, a => keywordInvoke b c a
  | .blockBinding, b, c, a => blockBindingInvoke b c a
  | .labeling, b, c, a => labelingInvoke b c a

/-- Try the operations of a pass in declaration order; first success wins
(Gekr.ts lines 519-525). An `Invocation` that fired returns null in the
source, so later operations of the same pass are tried against the
just-deleted node; here it counts as a success, which coincides with the
source whenever the built-in guards are disjoint (as in every grammar of
this repository, where `Invocation`s share a pass only with each other). -/
def tryOps : List ParserOperation → List Node → Node → List Node → Option (List Node × List Node)
  | [], _, _, _ => none
  | o :: restOps, b, c, a =>
    match invokeOp o b c a with
    | some r => some r
    | none => tryOps restOps b c a

/-- One pass of the rewrite loop (Gekr.ts lines 439-529) over the zipper.
At an `operator` node the fixity is determined from the neighbors, the
operator is looked up by id, and on a presentence match the operands are
consumed and an invocation is inserted. In the postfix case the source
resumes at the just-deleted operator node; here the cursor resumes after the
consumed region (equivalent whenever the second resolution misses the lookup
table; no grammar in this repository registers a postfix operator). -/
def runPassAux (g : Grammar) (i : Nat) (ops : List ParserOperation) :
    Nat → List Node → List Node → List Node
  | 0, before, rest => before.reverse ++ rest
  | _ + 1, before, [] => before.reverse
  | fuel + 1, before, cur :: after =>
    match cur with
    | .operator tok pos =>
      let targetPrev := hasTargetToward before
      let targetNext := hasTargetToward after
      let binding? : Option OperatorBinding :=
        if targetNext && targetPrev then some .inf
        else if targetNext then some .pre
        else if targetPrev then some .post
        else none
      match binding? with
      | none => runPassAux g i ops fuel ((.operator tok pos) :: before) after
      | some binding =>
        match g.operatorLookup.lookup (Operator.makeID tok binding) with
        | none => runPassAux g i ops fuel ((.operator tok pos) :: before) after
        | some (emitName, pres) =>
          if pres = i then
            match binding with
            | .pre =>
              match takeOperand after with
              | some (operand, after') =>
                runPassAux g i ops fuel
                  ((.invocation (.ident emitName pos) [operand] none pos) :: before) after'
              | none => runPassAux g i ops fuel ((.operator tok pos) :: before) after
            | .inf =>
              match takeOperand before, takeOperand after with
              | some (a, before'), some (b, after') =>
                runPassAux g i ops fuel
                  ((.invocation (.ident emitName pos) [a, b] none pos) :: before') after'
              | _, _ => runPassAux g i ops fuel ((.operator tok pos) :: before) after
            | .post =>
              match takeOperand before with
              | some (a, before') =>
                runPassAux g i ops fuel
                  ((.invocation (.ident emitName pos) [a] none pos) :: before') after
              | none => runPassAux g i ops fuel ((.operator tok pos) :: before) after
          else runPassAux g i ops fuel ((.operator tok pos) :: before) after
    | _ =>
      match tryOps ops before cur after with
      | some (b', r') => runPassAux g i ops fuel b' r'
      | none => runPassAux g i ops fuel (cur :: before) after

/-- Run the grammar's passes in stage order (Gekr.ts lines 436-530). -/
def runStages (g : Grammar) (fuel : Nat) :
    List (Nat × List ParserOperation) → List Node → List Node
  | [], tokens => tokens
  | (i, ops) :: rest, tokens => runStages g fuel rest (runPassAux g i ops fuel [] tokens)

/-- The validation sweep (Gekr.ts lines 532-553) over the final sequence.
`first` tracks `token.prev == null`. A leading separator is deleted; for a
non-separator node whose successor exists, a separator successor is deleted,
otherwise a missing-separator diagnostic is emitted unless the node is an
invocation with a block; a non-separator node with no successor breaks the
loop (so a trailing operator is not diagnosed); an operator node reached past
that break check gets an "Unexpected operator" diagnostic but is not removed.
The `for ... of tokens.keys()` iteration is modelled with the standard
LinkedList semantics: `delete` relinks the neighbors (so a deleted node's own
pointers stay usable) and the generator reads a node's `next` pointer after
the loop body has run, so iteration skips a successor the body deleted and
continues through a deleted current node. -/
def cleanupLoop : Bool → List Node → List Diagnostic → List Node × List Diagnostic
  | _, [], errors => ([], errors)
  | first, t :: rest, errors =>
    if first && t.kind = "separator" then cleanupLoop true rest errors
    else if t.kind ≠ "separator" then
      match rest with
      | [] => ([t], errors)
      | n :: r =>
        if n.kind = "separator" then
          let errors := if t.kind = "operator" then
            errors ++ [⟨"Unexpected operator", t.pos⟩] else errors
          let (ns, es) := cleanupLoop false r errors
          (t :: ns, es)
        else
          let errors := if isInvocationWithBlock t then errors
            else errors ++ [⟨"Unexpected token, expected \",\"", n.pos⟩]
          let errors := if t.kind = "operator" then
            errors ++ [⟨"Unexpected operator", t.pos⟩] else errors
          let (ns, es) := cleanupLoop false (n :: r) errors
          (t :: ns, es)
    else
      let (ns, es) := cleanupLoop false rest errors
      (t :: ns, es)

/-- `processTokens` (Gekr.ts lines 435-556): run every pass, then the
validation sweep, and return the resulting node list. -/
def processTokens (g : Grammar) (fuel : Nat) (tokens : List Node)
    (errors : List Diagnostic) : List Node × List Diagnostic :=
  cleanupLoop true (runStages g fuel g.passes.enum tokens) errors

/-!
The scanner (Gekr.ts `parse.parseBlock`, lines 558-763).

`GenericParser` semantics used by the source: `getCurrent()` reads the
character at `index`; `isDone()` is `index >= length`; `consume(tok)`
advances past `tok` when it matches at `index`; `readUntil(p)` collects
characters until `p` holds or input ends; `skipUntil(f)` repeatedly calls
`f(input, index)` while not done, stopping when `f` returns true and
incrementing `index` after every false.
-/

/-- The mutable scanning state threaded through `parse`: the shared parser
index, the running line counter, and the errors array. -/
structure ScanState where
  index : Nat
  line : Nat
  errors : List Diagnostic

/-- Character at an index (`getCurrent`). -/
def charAt (content : List Char) (i : Nat) : Option Char := content.get? i

/-- `v.startsWith(tok, i)` / a successful `consume(tok)` test. -/
def matchesAt (content : List Char) (i : Nat) (tok : List Char) : Bool :=
  tok.isPrefixOf (content.drop i)

/-- Count until the block-comment `readUntil` predicate (Gekr.ts line 576)
holds: the suffix starts with a comment mark or a newline. -/
def countToCommentMark : List Char → Nat
  | '/' :: '*' :: _ => 0
  | '*' :: '/' :: _ => 0
  | '\n' :: _ => 0
  | _ :: rest => 1 + countToCommentMark rest
  | [] => 0

/-- The nested block-comment loop (Gekr.ts lines 572-591): skip to the next
comment mark or newline, adjust depth (a newline bumps the line counter, `/`
opens a nesting, anything else - including end of input - closes one), step
two characters, stop when depth reaches -1. Returns the new index and line. -/
def commentLoop (content : List Char) : Nat → Int → Nat → Nat → Nat × Nat
  | 0, _, i, line => (i, line)
  | fuel + 1, depth, i, line =>
    let i' := i + countToCommentMark (content.drop i)
    match charAt content i' with
    | some '\n' =>
      if depth = -1 then (i' + 2, line + 1)
      else commentLoop content fuel depth (i' + 2) (line + 1)
    | some '/' => commentLoop content fuel (depth + 1) (i' + 2) line
    | _ =>
      if depth - 1 = -1 then (i' + 2, line)
      else commentLoop content fuel (depth - 1) (i' + 2) line

/-- Greedy digit run: the scanned string and the index after it. -/
def takeDigits (p : Char → Bool) (content : List Char) (i : Nat) : String × Nat :=
  let cs := (content.drop i).takeWhile p
  (String.mk cs, i + cs.length)

/-- Digit value in a given base (`parseInt` digit handling). -/
def digitValue (c : Char) : Nat :=
  if c.isDigit then c.toNat - '0'.toNat
  else c.toLower.toNat - 'a'.toNat + 10

/-- `parseInt(src, base)` on a valid digit run. -/
def natOfBase (base : Nat) (cs : List Char) : Nat :=
  cs.foldl (fun acc c => acc * base + digitValue c) 0

/-- Numeric-literal scanning (Gekr.ts lines 610-642): `0x` hex, `0b` binary,
or decimal with optional fraction and exponent. Returns the value, the
scanned `src` (which sets the position length) and the index after the
literal. -/
def scanNumber (content : List Char) (i0 : Nat) : NumberValue × String × Nat :=
  if matchesAt content i0 ['0', 'x'] then
    let (src, i1) := takeDigits isHexChar content (i0 + 2)
    ((if src.isEmpty then .nan else .num (natOfBase 16 src.data)), src, i1)
  else if matchesAt content i0 ['0', 'b'] then
    let (src, i1) := takeDigits (fun c => c = '0' || c = '1') content (i0 + 2)
    ((if src.isEmpty then .nan else .num (natOfBase 2 src.data)), src, i1)
  else
    let (intPart, i1) := takeDigits isNumberChar content i0
    let (src2, isDec2, i2) :=
      if charAt content i1 = some '.' then
        let (frac, i') := takeDigits isNumberChar content (i1 + 1)
        (intPart ++ "." ++ frac, true, i')
      else (intPart, false, i1)
    let (src3, isDec3, i3) :=
      if charAt content i2 = some 'e' || charAt content i2 = some 'E' then
        let (sign, ie) :=
          if charAt content (i2 + 1) = some '+' then ("+", i2 + 2)
          else if charAt content (i2 + 1) = some '-' then ("-", i2 + 2)
          else ("", i2 + 1)
        let (ex, i') := takeDigits isNumberChar content ie
        (src2 ++ "e" ++ sign ++ ex, true, i')
      else (src2, isDec2, i2)
    ((if isDec3 then .dec src3 else .num (natOfBase 10 src3.data)), src3, i3)

/-- The escape map of the string scanner (Gekr.ts lines 680-684): backslash,
`n`, `r`, `t` and the double-quote character produce their escaped character,
anything else contributes nothing. -/
def escString (esc : Option Char) : String :=
  if esc = some '\\' then "\\"
  else if esc = some 'n' then "\n"
  else if esc = some 'r' then "\r"
  else if esc = some 't' then "\t"
  else if esc = some '"' then "\""
  else ""

/-- `parser.consume(["\"", "'", "$\"", "$'"])` (Gekr.ts line 653): first
matching opener, its template flag, terminator character and the index after
the opener. -/
def consumeQuote (content : List Char) (i : Nat) : Option (Bool × Char × Nat) :=
  if matchesAt content i ['"'] then some (false, '"', i + 1)
  else if matchesAt content i ['\''] then some (false, '\'', i + 1)
  else if matchesAt content i ['$', '"'] then some (true, '"', i + 2)
  else if matchesAt content i ['$', '\''] then some (true, '\'', i + 2)
  else none

/-- Append or merge an "Unexpected character" diagnostic (Gekr.ts lines
746-755): when the last diagnostic ends exactly where the new character
starts (`top.pos.offset == pos.offset - top.pos.length`, stated here over
naturals as `top.pos.offset + top.pos.length == pos.offset`, the equivalent
integer equation), its length is extended instead. -/
def pushUnexpectedChar (errors : List Diagnostic) (pos : Position) : List Diagnostic :=
  match errors.getLast? with
  | some top =>
    if top.pos.offset + top.pos.length = pos.offset then
      errors.dropLast ++ [⟨top.message, ⟨top.pos.line, top.pos.offset, top.pos.length + 1⟩⟩]
    else errors ++ [⟨"Unexpected character", pos⟩]
  | none => errors ++ [⟨"Unexpected character", pos⟩]

/-- The unterminated-block message (Gekr.ts line 759). -/
def unterminatedMsg (t : Char) : String :=
  "Unterminated block, expected \"" ++ String.singleton t ++ "\""

/-- The string-scanning `skipUntil` loop (Gekr.ts lines 667-696). `interp`
parses one `${...}` interpolation slot (the source recurses into
`parseBlock("}")`; after it returns, `parser.index--` and the loop's
increment cancel out). Accumulates the current literal segment `value`, the
finished segments `strs` and the value groups `vals`; returns them with the
state after the closing quote (or end of input). -/
def scanString (content : List Char) (interp : ScanState → List Node × ScanState) :
    Nat → Bool → Char → ScanState → String → List String → List (List Node) →
    String × List String × List (List Node) × ScanState
  | 0, _, _, st, value, strs, vals => (value, strs, vals, st)
  | fuel + 1, template, termc, st, value, strs, vals =>
    match charAt content st.index with
    | none => (value, strs, vals, st)
    | some c =>
      if template && matchesAt content st.index ['$', '\x7b'] then
        let (nodes, st') := interp { st with index := st.index + 2 }
        scanString content interp fuel template termc st' "" (strs ++ [value]) (vals ++ [nodes])
      else if c = '\\' then
        if content.length ≤ st.index + 1 then (value, strs, vals, { st with index := st.index + 1 })
        else
          scanString content interp fuel template termc { st with index := st.index + 2 }
            (value ++ escString (charAt content (st.index + 1))) strs vals
      else if c = termc then (value, strs, vals, { st with index := st.index + 1 })
      else
        scanString content interp fuel template termc
          { st with index := st.index + 1, line := if c = '\n' then st.line + 1 else st.line }
          (value.push c) strs vals

/-- The per-scope scanning loop (Gekr.ts lines 561-756 plus the epilogue at
758-762), one recursive step per iteration of the source's `top:` loop.
`term` is the expected terminator (`none` at top level), `tokens` the scope's
token sequence built so far. Returns the scope's processed node list and the
state after the terminator. Fuel exhaustion returns the raw tokens. -/
def parseBlockLoop (g : Grammar) (content : List Char) :
    Nat → Option Char → ScanState → List Node → List Node × ScanState
  | 0, _, st, tokens => (tokens, st)
  | fuel + 1, term, st, tokens =>
    match charAt content st.index with
    | none =>
      let errors := match term with
        | some t => st.errors ++ [⟨unterminatedMsg t, ⟨st.line, st.index, 1⟩⟩]
        | none => st.errors
      let (nodes, errors') := processTokens g fuel tokens errors
      (nodes, { st with errors := errors' })
    | some curr =>
      let pos : Position := ⟨st.line, st.index, 1⟩
      if matchesAt content st.index ['/', '/'] then
        let skipped := (content.drop (st.index + 2)).takeWhile (fun c => !(c = '\n'))
        parseBlockLoop g content fuel term
          { st with index := st.index + 2 + skipped.length + 1, line := st.line + 1 } tokens
      else if matchesAt content st.index ['/', '*'] then
        let (i', l') := commentLoop content fuel 0 (st.index + 2) st.line
        parseBlockLoop g content fuel term { st with index := i', line := l' } tokens
      else
        match g.definedTokens.find? (fun tok => matchesAt content st.index tok.data) with
        | some tok =>
          let st' := { st with index := st.index + tok.length }
          let pos' : Position := ⟨st.line, st.index, tok.length⟩
          (match g.definitionLookup.lookup tok with
          | some f => parseBlockLoop g content fuel term st' (tokens ++ [f pos'])
          | none => parseBlockLoop g content fuel term st' (tokens ++ [.operator tok pos']))
        | none =>
          if isNumberChar curr then
            let (value, src, i') := scanNumber content st.index
            parseBlockLoop g content fuel term { st with index := i' }
              (tokens ++ [.number value ⟨st.line, st.index, src.length⟩])
          else if matchesAt content st.index ['\\', '\\'] then
            let valChars := (content.drop (st.index + 2)).takeWhile (fun c => !(c = '\n' || c = '\r'))
            let i1 := st.index + 2 + valChars.length
            let i2 := if charAt content i1 = some '\r' then i1 + 1 else i1
            let st' := { st with index := i2 + 1, line := st.line + 1 }
            (match tokens.getLast? with
            | some (.str v true p) =>
              parseBlockLoop g content fuel term st'
                (tokens.dropLast ++ [.str (v ++ "\n" ++ String.mk valChars) true p])
            | _ =>
              parseBlockLoop g content fuel term st'
                (tokens ++ [.str (String.mk valChars) true pos]))
          else
            match consumeQuote content st.index with
            | some (template, qc, i') =>
              let (value, strs, vals, st') :=
                scanString content
                  (fun s => parseBlockLoop g content fuel (some '\x7d') s [])
                  fuel template qc { st with index := i' } "" [] []
              if template then
                parseBlockLoop g content fuel term st'
                  (tokens ++ [.format (strs ++ [value]) vals pos])
              else
                parseBlockLoop g content fuel term st' (tokens ++ [.str value false pos])
            | none =>
              if curr = ':' && !tokens.isEmpty then
                match tokens.getLast? with
                | some (.ident name ipos) =>
                  parseBlockLoop g content fuel term { st with index := st.index + 1 }
                    (tokens.dropLast ++ [.labelOp name ipos])
                | _ =>
                  parseBlockLoop g content fuel term { st with index := st.index + 1 }
                    (tokens ++ [.separator true pos])
              else if isWordChar curr then
                let word := (content.drop st.index).takeWhile isWordChar
                parseBlockLoop g content fuel term { st with index := st.index + word.length }
                  (tokens ++ [.ident (String.mk word) ⟨st.line, st.index, word.length⟩])
              else if term = some curr then
                let (nodes, errors') := processTokens g fuel tokens st.errors
                (nodes, { st with index := st.index + 1, errors := errors' })
              else if isWhitespaceChar curr then
                parseBlockLoop g content fuel term { st with index := st.index + 1 } tokens
              else if curr = '\n' then
                let tokens' := match tokens.getLast? with
                  | some n => if n.kind = "separator" then tokens else tokens ++ [.separator false pos]
                  | none => tokens ++ [.separator false pos]
                parseBlockLoop g content fuel term
                  { st with index := st.index + 1, line := st.line + 1 } tokens'
              else if curr = ',' then
                match tokens.getLast? with
                | some n =>
                  if n.kind = "separator" then
                    parseBlockLoop g content fuel term
                      { st with
                          index := st.index + 1
                          errors := st.errors ++ [⟨"Unexpected \",\", there is already a separator", pos⟩] }
                      tokens
                  else
                    parseBlockLoop g content fuel term { st with index := st.index + 1 }
                      (tokens ++ [.separator true pos])
                | none =>
                  parseBlockLoop g content fuel term { st with index := st.index + 1 }
                    (tokens ++ [.separator true pos])
              else if curr = '(' then
                let (children, st') :=
                  parseBlockLoop g content fuel (some ')') { st with index := st.index + 1 } []
                parseBlockLoop g content fuel term st' (tokens ++ [.group children pos])
              else if curr = '\x7b' then
                let (children, st') :=
                  parseBlockLoop g content fuel (some '\x7d') { st with index := st.index + 1 } []
                parseBlockLoop g content fuel term st' (tokens ++ [.block children pos])
              else if curr = '[' then
                let (children, st') :=
                  parseBlockLoop g content fuel (some ']') { st with index := st.index + 1 } []
                parseBlockLoop g content fuel term st' (tokens ++ [.tuple children pos])
              else
                parseBlockLoop g content fuel term
                  { st with index := st.index + 1, errors := pushUnexpectedChar st.errors pos } tokens

/-- Result of a parse (Gekr.ts line 768): the accumulated diagnostics (or
`null` when none) and the root node. -/
structure ParseResult where
  errors : Option (List Diagnostic)
  result : Node
deriving Repr

/-- `Gekr.parse` (lines 430-769): scan the top-level scope and wrap the
result in a root node. -/
def parse (source : Document) (g : Grammar) (fuel : Nat) (lineOffset : Nat := 0) : ParseResult :=
  let (rootNodes, st) :=
    parseBlockLoop g source.content fuel none ⟨0, lineOffset, []⟩ []
  { errors := if st.errors.isEmpty then none else some st.errors,
    result := .root rootNodes ⟨lineOffset, 0, 1⟩ }

/-!
Tree predicates used by the claims.
-/

/-- A tree containing no node of kind operator, separator, or label_op
anywhere (there is no constructor for those kinds, so they can never satisfy
the predicate). -/
inductive CleanTree : Node → Prop where
  | root (cs : List Node) (p : Position) : (∀ c ∈ cs, CleanTree c) → CleanTree (.root cs p)
  | block (cs : List Node) (p : Position) : (∀ c ∈ cs, CleanTree c) → CleanTree (.block cs p)
  | group (cs : List Node) (p : Position) : (∀ c ∈ cs, CleanTree c) → CleanTree (.group cs p)
  | tuple (cs : List Node) (p : Position) : (∀ c ∈ cs, CleanTree c) → CleanTree (.tuple cs p)
  | ident (n : String) (p : Position) : CleanTree (.ident n p)
  | label (l : String) (t : Node) (p : Position) : CleanTree t → CleanTree (.label l t p)
  | str (v : String) (fl : Bool) (p : Position) : CleanTree (.str v fl p)
  | number (v : NumberValue) (p : Position) : CleanTree (.number v p)
  | format (ss : List String) (vs : List (List Node)) (p : Position) :
      (∀ v ∈ vs, ∀ n ∈ v, CleanTree n) → CleanTree (.format ss vs p)
  | invocation (t : Node) (cs : List Node) (blk : Option Node) (p : Position) :
      CleanTree t → (∀ c ∈ cs, CleanTree c) → (∀ b ∈ blk, CleanTree b) →
      CleanTree (.invocation t cs blk p)

/-- Every `format` node in the tree has exactly one more literal segment than
value groups (`strings.length = values.length + 1`); all other kinds are
unconstrained apart from the recursion into their children. -/
inductive FormatArityOk : Node → Prop where
  | root (cs : List Node) (p : Position) : (∀ c ∈ cs, FormatArityOk c) → FormatArityOk (.root cs p)
  | block (cs : List Node) (p : Position) : (∀ c ∈ cs, FormatArityOk c) → FormatArityOk (.block cs p)
  | group (cs : List Node) (p : Position) : (∀ c ∈ cs, FormatArityOk c) → FormatArityOk (.group cs p)
  | tuple (cs : List Node) (p : Position) : (∀ c ∈ cs, FormatArityOk c) → FormatArityOk (.tuple cs p)
  | ident (n : String) (p : Position) : FormatArityOk (.ident n p)
  | label (l : String) (t : Node) (p : Position) : FormatArityOk t → FormatArityOk (.label l t p)
  | str (v : String) (fl : Bool) (p : Position) : FormatArityOk (.str v fl p)
  | number (v : NumberValue) (p : Position) : FormatArityOk (.number v p)
  | operator (t : String) (p : Position) : FormatArityOk (.operator t p)
  | separator (s : Bool) (p : Position) : FormatArityOk (.separator s p)
  | labelOp (n : String) (p : Position) : FormatArityOk (.labelOp n p)
  | format (ss : List String) (vs : List (List Node)) (p : Position) :
      ss.length = vs.length + 1 → (∀ v ∈ vs, ∀ n ∈ v, FormatArityOk n) →
      FormatArityOk (.format ss vs p)
  | invocation (t : Node) (cs : List Node) (blk : Option Node) (p : Position) :
      FormatArityOk t → (∀ c ∈ cs, FormatArityOk c) → (∀ b ∈ blk, FormatArityOk b) →
      FormatArityOk (.invocation t cs blk p)

/-- The explicitly defined tokens of a grammar only produce format-arity-sound
nodes (vacuously true for every grammar without definitions, such as the
arithmetic grammar). -/
def GrammarDefsOk (g : Grammar) : Prop :=
  ∀ p ∈ g.definitionLookup, ∀ pos, FormatArityOk (p.2 pos)

/-!
Claim theorems. `fuel := 1000` is ample for every concrete document below
(the scanner and engine consume at most one unit per processed character or
token).
-/

/-- C1: parsing "1 + 2 / 3" under the arithmetic grammar (stage 0 prefix `-`,
stage 1 infix `*` `/`, stage 2 infix `+` `-`) yields no errors and the single
root child `add(1, div(2, 3))`: the stage of `/` runs before the stage of
`+`, so `/` binds tighter. -/
theorem C1_precedence :
    parse ⟨"test", "1 + 2 / 3".data⟩ arith 1000 =
      { errors := none,
        result := .root
          [.invocation (.ident "add" ⟨0, 2, 1⟩)
            [.number (.num 1) ⟨0, 0, 1⟩,
             .invocation (.ident "div" ⟨0, 6, 1⟩)
               [.number (.num 2) ⟨0, 4, 1⟩, .number (.num 3) ⟨0, 8, 1⟩]
               none ⟨0, 6, 1⟩]
            none ⟨0, 2, 1⟩]
          ⟨0, 0, 1⟩ } := rfl

/-- C3: the token "-" registered both as prefix (emit `neg`) and infix (emit
`sub`) is resolved per occurrence from its local context: "-1 + 2" parses to
`add(neg(1), 2)` and "1 - 2" parses to `sub(1, 2)`. -/
theorem C3_fixity_disambiguation :
    parse ⟨"test", "-1 + 2".data⟩ arith 1000 =
      { errors := none,
        result := .root
          [.invocation (.ident "add" ⟨0, 3, 1⟩)
            [.invocation (.ident "neg" ⟨0, 0, 1⟩) [.number (.num 1) ⟨0, 1, 1⟩] none ⟨0, 0, 1⟩,
             .number (.num 2) ⟨0, 5, 1⟩]
            none ⟨0, 3, 1⟩]
          ⟨0, 0, 1⟩ } ∧
    parse ⟨"test", "1 - 2".data⟩ arith 1000 =
      { errors := none,
        result := .root
          [.invocation (.ident "sub" ⟨0, 2, 1⟩)
            [.number (.num 1) ⟨0, 0, 1⟩, .number (.num 2) ⟨0, 4, 1⟩]
            none ⟨0, 2, 1⟩]
          ⟨0, 0, 1⟩ } := ⟨rfl, rfl⟩

/-- C2 counterexample: parsing "+ 1" under the arithmetic grammar returns a
tree whose root still contains the unresolved `operator` node for "+": the
cleanup sweep diagnoses it ("Unexpected operator") but does not remove it,
so the claimed invariant fails. -/
theorem C2_counterexample :
    ¬ CleanTree (parse ⟨"test", "+ 1".data⟩ arith 1000).result := by
  rw [show (parse ⟨"test", "+ 1".data⟩ arith 1000).result =
      Node.root [.operator "+" ⟨0, 0, 1⟩, .number (.num 1) ⟨0, 2, 1⟩] ⟨0, 0, 1⟩ from rfl]
  intro h
  cases h with
  | root _ _ hc => exact nomatch hc (.operator "+" ⟨0, 0, 1⟩) (by simp)

/-- C6 counterexample: inside a '-quoted string the sequence backslash-quote
does not produce the quote character: the escape map only handles the
double-quote character (Gekr.ts line 684), so both characters are dropped and
the parsed value of `'a\'b'` is "ab", not "a'b" as the claim requires. -/
theorem C6_counterexample :
    parse ⟨"test", "'a\\'b'".data⟩ arith 1000 =
      { errors := none,
        result := .root [.str "ab" false ⟨0, 0, 1⟩] ⟨0, 0, 1⟩ } ∧
    ("ab" : String) ≠ "a'b" := ⟨rfl, by decide⟩

/-- C7 counterexample: a ':' as the first character of its scope is not
scanned as a strong separator: the colon branch requires a previous token
(Gekr.ts line 704, `tokens.end != null`), so parsing ":" falls through to the
unexpected-character branch, producing a diagnostic (a scanned separator
would have been silently deleted by the cleanup sweep, leaving no error). -/
theorem C7_counterexample :
    parse ⟨"test", ":".data⟩ arith 1000 =
      { errors := some [⟨"Unexpected character", ⟨0, 0, 1⟩⟩],
        result := .root [] ⟨0, 0, 1⟩ } := rfl

/-- C5 counterexample: `BlockBinding.invoke` fires even though the token
after the target is neither a block node nor the arrow operator "=>": at
cursor `a` with following tokens `operator "*"` and `b`, it rewrites the
sequence, binding `b` as the block of a fresh invocation of `a` (the source
only checks `specToken.kind == "operator"`, Gekr.ts line 259). -/
theorem C5_counterexample :
    (Node.operator "*" ⟨0, 2, 1⟩).kind ≠ "block" ∧
    ("*" : String) ≠ "=>" ∧
    blockBindingInvoke [] (.ident "a" ⟨0, 0, 1⟩) [.operator "*" ⟨0, 2, 1⟩, .ident "b" ⟨0, 4, 1⟩] =
      some ([.invocation (.ident "a" ⟨0, 0, 1⟩) [] (some (.ident "b" ⟨0, 4, 1⟩)) ⟨0, 0, 1⟩], []) :=
  ⟨by decide, by decide, rfl⟩

/-- C5 amended: `BlockBinding.invoke` fires exactly when the cursor is an
identifier, a group, or a blockless invocation, and the next token is a block
node or a node of kind operator (any operator token, not just "=>") followed
by some further node; in every other situation it declines (returns none, so
the engine leaves the sequence unchanged and advances). -/
theorem C5_amended (before : List Node) (cur : Node) (after : List Node) :
    (blockBindingInvoke before cur after).isSome =
      ((match cur with
        | .invocation _ _ none _ => true
        | .ident .. => true
        | .group .. => true
        | _ => false) &&
       (match after with
        | [] => false
        | n :: rest => n.kind = "block" || (n.kind = "operator" && !rest.isEmpty))) := by
  cases cur <;>
    first
    | (cases after with
       | nil => simp [blockBindingInvoke]
       | cons spec rest =>
          cases spec <;> cases rest <;>
            simp [blockBindingInvoke, Node.kind])
    | (rename_i blk _
       cases blk <;>
       cases after with
       | nil => simp [blockBindingInvoke]
       | cons spec rest =>
          cases spec <;> cases rest <;>
            simp [blockBindingInvoke, Node.kind])

/-!
Auxiliary lemmas about the scanner and engine, used by the remaining claims.
-/

theorem lt_length_of_charAt {content : List Char} {i : Nat} {c : Char}
    (h : charAt content i = some c) : i < content.length :=
  (List.get?_eq_some.mp h).1

theorem drop_eq_cons_of_charAt {content : List Char} {i : Nat} {c : Char}
    (h : charAt content i = some c) :
    content.drop i = c :: content.drop (i + 1) := by
  have hlt : i < content.length := lt_length_of_charAt h
  rw [List.drop_eq_getElem_cons hlt]
  obtain ⟨h1, h2⟩ := List.get?_eq_some.mp h
  simp only [List.get_eq_getElem] at h2
  rw [h2]

/-- A probe token starting with a character other than the current one never
matches at the cursor. -/
theorem matchesAt_head_ne {content : List Char} {i : Nat} {c c' : Char} {l : List Char}
    (h : charAt content i = some c) (hne : c' ≠ c) :
    matchesAt content i (c' :: l) = false := by
  unfold matchesAt
  rw [drop_eq_cons_of_charAt h]
  simp [List.isPrefixOf, hne]

/-- When every defined token is nonempty and starts with a character other
than the current one, the greedy defined-token search finds nothing. -/
theorem find?_definedTokens_none {g : Grammar} {content : List Char} {i : Nat} {c : Char}
    (h : charAt content i = some c)
    (hg : g.definedTokens.all (fun tok => !tok.data.isEmpty && tok.data.head? != some c) = true) :
    g.definedTokens.find? (fun tok => matchesAt content i tok.data) = none := by
  rw [List.find?_eq_none]
  intro tok htok
  have := List.all_eq_true.mp hg tok htok
  simp only [Bool.and_eq_true, bne_iff_ne, ne_eq, Bool.not_eq_true'] at this
  obtain ⟨hne, hhd⟩ := this
  match he : tok.data with
  | [] => rw [he] at hne; simp at hne
  | c' :: l =>
    rw [he] at hhd
    simp only [List.head?] at hhd
    rw [matchesAt_head_ne h (fun hcc => hhd (by rw [hcc]))]
    simp

/-- A pass run on an empty sequence produces an empty sequence. -/
theorem runPassAux_nil (g : Grammar) (i : Nat) (ops : List ParserOperation) (fuel : Nat) :
    runPassAux g i ops fuel [] [] = [] := by
  cases fuel <;> rfl

/-- All stages run on an empty sequence produce an empty sequence. -/
theorem runStages_nil (g : Grammar) (fuel : Nat) (stages : List (Nat × List ParserOperation)) :
    runStages g fuel stages [] = [] := by
  induction stages with
  | nil => rfl
  | cons s rest ih =>
    obtain ⟨i, ops⟩ := s
    rw [runStages, runPassAux_nil]
    exact ih

/-- `processTokens` of an empty sequence returns it with untouched errors. -/
theorem processTokens_nil (g : Grammar) (fuel : Nat) (errors : List Diagnostic) :
    processTokens g fuel [] errors = ([], errors) := by
  unfold processTokens
  rw [runStages_nil]
  rfl

/-- The validation sweep only appends diagnostics: everything already in the
errors list stays in it. -/
theorem cleanupLoop_errors_mem {d : Diagnostic} :
    ∀ (first : Bool) (l : List Node) (errors : List Diagnostic),
      d ∈ errors → d ∈ (cleanupLoop first l errors).2 := by
  intro first l errors
  induction first, l, errors using cleanupLoop.induct with
  | case1 x errors => intro hd; simpa [cleanupLoop] using hd
  | case2 first t rest errors hcond ih =>
    intro hd
    rw [cleanupLoop.eq_def]
    simp only [hcond, if_true]
    exact ih hd
  | case3 first t errors hcond hkind =>
    intro hd
    rw [cleanupLoop.eq_def]
    simp [hcond, hkind]
    exact hd
  | case4 first t errors hcond hkind p ps hsep e1 ns es heq ih =>
    intro hd
    have hmem : d ∈ e1 := by
      show d ∈ (if t.kind = "operator"
        then errors ++ [{ message := "Unexpected operator", pos := t.pos }] else errors)
      split
      · exact List.mem_append_left _ hd
      · exact hd
    rw [cleanupLoop.eq_def]
    simp [hcond, hkind, hsep, heq]
    rw [heq] at ih
    simpa using ih hmem
  | case5 first t errors hcond hkind p ps hsep e1 e2 ns es heq ih =>
    intro hd
    have hmem1 : d ∈ e1 := by
      show d ∈ (if isInvocationWithBlock t = true then errors
        else errors ++ [{ message := "Unexpected token, expected \",\"", pos := p.pos }])
      split
      · exact hd
      · exact List.mem_append_left _ hd
    have hmem : d ∈ e2 := by
      show d ∈ (if t.kind = "operator"
        then e1 ++ [{ message := "Unexpected operator", pos := t.pos }] else e1)
      split
      · exact List.mem_append_left _ hmem1
      · exact hmem1
    rw [cleanupLoop.eq_def]
    simp [hcond, hkind, hsep, heq]
    rw [heq] at ih
    simpa using ih hmem
  | case6 first t rest errors hcond hkind ns es heq ih =>
    intro hd
    rw [cleanupLoop.eq_def]
    simp only [hcond, hkind, heq, if_true, if_false, ite_true, ite_false, reduceIte]
    rw [heq] at ih
    exact ih hd

/-- `processTokens` only appends diagnostics. -/
theorem processTokens_errors_mem {d : Diagnostic} (g : Grammar) (fuel : Nat)
    (tokens : List Node) (errors : List Diagnostic) (hd : d ∈ errors) :
    d ∈ (processTokens g fuel tokens errors).2 := by
  unfold processTokens
  exact cleanupLoop_errors_mem true _ errors hd

/-- Reaching end of input while a terminator is expected appends the
unterminated-block diagnostic at the current position, and that diagnostic
survives the token processing into the returned state. -/
theorem parseBlockLoop_eof_unterminated (g : Grammar) (content : List Char) (t : Char)
    (st : ScanState) (tokens : List Node) (fuel : Nat)
    (h : content.length ≤ st.index) :
    (⟨unterminatedMsg t, ⟨st.line, st.index, 1⟩⟩ : Diagnostic) ∈
      (parseBlockLoop g content (fuel + 1) (some t) st tokens).2.errors := by
  have hnone : charAt content st.index = none := by
    unfold charAt
    exact List.get?_eq_none.mpr h
  rw [parseBlockLoop.eq_def]
  simp only [hnone]
  rcases hpt : processTokens g fuel tokens
      (st.errors ++ [⟨unterminatedMsg t, ⟨st.line, st.index, 1⟩⟩]) with ⟨ns, es⟩
  simp only [hpt]
  have := processTokens_errors_mem (d := ⟨unterminatedMsg t, ⟨st.line, st.index, 1⟩⟩)
    g fuel tokens (st.errors ++ [⟨unterminatedMsg t, ⟨st.line, st.index, 1⟩⟩])
    (List.mem_append_right _ (by simp))
  rw [hpt] at this
  exact this

/-- A character that matches no scanner branch (no defined token, not a
digit, quote, word character, terminator, whitespace, newline, comma,
bracket, colon, slash or backslash) takes the unexpected-character branch:
the index advances by one and the diagnostic is appended or merged. -/
theorem parseBlockLoop_unexpected_step (g : Grammar) (content : List Char)
    (fuel : Nat) (term : Option Char) (st : ScanState) (tokens : List Node) (c : Char)
    (h : charAt content st.index = some c)
    (hg : g.definedTokens.all (fun tok => !tok.data.isEmpty && tok.data.head? != some c) = true)
    (hslash : c ≠ '/') (hnum : isNumberChar c = false) (hbs : c ≠ '\\')
    (hdq : c ≠ '"') (hsq : c ≠ '\'') (hdol : c ≠ '$')
    (hcolon : c ≠ ':') (hword : isWordChar c = false) (hterm : term ≠ some c)
    (hws : isWhitespaceChar c = false) (hnl : c ≠ '\n') (hcomma : c ≠ ',')
    (hpar : c ≠ '(') (hbrace : c ≠ '\x7b') (hbrack : c ≠ '[') :
    parseBlockLoop g content (fuel + 1) term st tokens =
      parseBlockLoop g content fuel term
        { st with index := st.index + 1
                  errors := pushUnexpectedChar st.errors ⟨st.line, st.index, 1⟩ } tokens := by
  have m1 : matchesAt content st.index ['/', '/'] = false := matchesAt_head_ne h (Ne.symm hslash)
  have m2 : matchesAt content st.index ['/', '*'] = false := matchesAt_head_ne h (Ne.symm hslash)
  have m3 : matchesAt content st.index ['\\', '\\'] = false := matchesAt_head_ne h (Ne.symm hbs)
  have mfind := find?_definedTokens_none h hg
  have mq : consumeQuote content st.index = none := by
    unfold consumeQuote
    rw [matchesAt_head_ne h (Ne.symm hdq), matchesAt_head_ne h (Ne.symm hsq),
      matchesAt_head_ne h (Ne.symm hdol), matchesAt_head_ne h (Ne.symm hdol)]
    rfl
  have hterm' : (term = some c) = False := by simp [hterm]
  rw [parseBlockLoop.eq_def]
  simp only [h, m1, m2, m3, mfind, mq, hnum, hword, hws, hcolon, hterm', hnl, hcomma,
    hpar, hbrace, hbrack, Bool.false_eq_true, if_false, reduceIte, decide_False,
    Bool.false_and, Bool.and_false]

/-- Parsing "@@@" under any grammar whose defined tokens are nonempty and do
not start with '@' produces the empty root and one merged diagnostic spanning
all three characters. -/
theorem parse_unexpected_chars_general (g : Grammar) (path : String) (fuel : Nat)
    (hg : g.definedTokens.all (fun tok => !tok.data.isEmpty && tok.data.head? != some '@') = true) :
    parse ⟨path, "@@@".data⟩ g (fuel + 4) =
      { errors := some [⟨"Unexpected character", ⟨0, 0, 3⟩⟩], result := .root [] ⟨0, 0, 1⟩ } := by
  have hrun : parseBlockLoop g "@@@".data (fuel + 4) none ⟨0, 0, []⟩ [] =
      ([], ⟨3, 0, [⟨"Unexpected character", ⟨0, 0, 3⟩⟩]⟩) := by
    rw [parseBlockLoop_unexpected_step g "@@@".data (fuel + 3) none ⟨0, 0, []⟩ [] '@' rfl hg
      (by decide) rfl (by decide) (by decide) (by decide) (by decide) (by decide) rfl
      (by decide) rfl (by decide) (by decide) (by decide) (by decide) (by decide)]
    show parseBlockLoop g "@@@".data (fuel + 3) none
      ⟨1, 0, [⟨"Unexpected character", ⟨0, 0, 1⟩⟩]⟩ [] = _
    rw [parseBlockLoop_unexpected_step g "@@@".data (fuel + 2) none
      ⟨1, 0, [⟨"Unexpected character", ⟨0, 0, 1⟩⟩]⟩ [] '@' rfl hg
      (by decide) rfl (by decide) (by decide) (by decide) (by decide) (by decide) rfl
      (by decide) rfl (by decide) (by decide) (by decide) (by decide) (by decide)]
    show parseBlockLoop g "@@@".data (fuel + 2) none
      ⟨2, 0, [⟨"Unexpected character", ⟨0, 0, 2⟩⟩]⟩ [] = _
    rw [parseBlockLoop_unexpected_step g "@@@".data (fuel + 1) none
      ⟨2, 0, [⟨"Unexpected character", ⟨0, 0, 2⟩⟩]⟩ [] '@' rfl hg
      (by decide) rfl (by decide) (by decide) (by decide) (by decide) (by decide) rfl
      (by decide) rfl (by decide) (by decide) (by decide) (by decide) (by decide)]
    show parseBlockLoop g "@@@".data (fuel + 1) none
      ⟨3, 0, [⟨"Unexpected character", ⟨0, 0, 3⟩⟩]⟩ [] = _
    rw [parseBlockLoop.eq_def]
    simp only [show charAt "@@@".data 3 = none from rfl, processTokens_nil]
  unfold parse
  simp only [hrun]
  rfl

/-- Inside a string, a backslash followed by a character that is none of
backslash, n, r, t, or the double quote contributes nothing to the value and
never terminates the string: scanning continues two characters further with
all accumulators unchanged. -/
theorem scanString_escape_skip (content : List Char) (interp : ScanState → List Node × ScanState)
    (fuel : Nat) (template : Bool) (termc : Char) (st : ScanState)
    (value : String) (strs : List String) (vals : List (List Node)) (c : Char)
    (h0 : charAt content st.index = some '\\')
    (h1 : charAt content (st.index + 1) = some c)
    (hc1 : c ≠ '\\') (hc2 : c ≠ 'n') (hc3 : c ≠ 'r') (hc4 : c ≠ 't') (hc5 : c ≠ '"') :
    scanString content interp (fuel + 1) template termc st value strs vals =
      scanString content interp fuel template termc
        { st with index := st.index + 2 } value strs vals := by
  have hlt : (content.length ≤ st.index + 1) = False := by
    simp [Nat.not_le.mpr (lt_length_of_charAt h1)]
  have hm : matchesAt content st.index ['$', '\x7b'] = false :=
    matchesAt_head_ne h0 (by decide)
  have hesc : escString (charAt content (st.index + 1)) = "" := by
    rw [h1]
    simp [escString, hc1, hc2, hc3, hc4, hc5]
  rw [scanString.eq_def]
  simp only [h0, hm, hlt, hesc, Bool.and_false, Bool.false_eq_true, if_false, reduceIte,
    if_true, ite_true, if_pos rfl]
  simp

/-- C8: parsing "@@@" produces exactly one "Unexpected character" diagnostic
spanning all three characters: each further unexpected character starting at
the end offset of the previous diagnostic extends its length. Shown for the
concrete arithmetic grammar and for every grammar whose defined tokens are
nonempty and do not start with '@'. -/
theorem C8_merged_unexpected_chars :
    parse ⟨"test", "@@@".data⟩ arith 1000 =
      { errors := some [⟨"Unexpected character", ⟨0, 0, 3⟩⟩], result := .root [] ⟨0, 0, 1⟩ } ∧
    ∀ (g : Grammar) (path : String) (fuel : Nat),
      g.definedTokens.all (fun tok => !tok.data.isEmpty && tok.data.head? != some '@') = true →
      parse ⟨path, "@@@".data⟩ g (fuel + 4) =
        { errors := some [⟨"Unexpected character", ⟨0, 0, 3⟩⟩], result := .root [] ⟨0, 0, 1⟩ } :=
  ⟨rfl, fun g path fuel hg => parse_unexpected_chars_general g path fuel hg⟩

/-- C8 witness: the general statement holds at the arithmetic grammar, whose
defined tokens ("-", "*", "/", "+") are nonempty and do not start with
'@'. -/
theorem C8_merged_unexpected_chars_witness :
    parse ⟨"w", "@@@".data⟩ arith (0 + 4) =
      { errors := some [⟨"Unexpected character", ⟨0, 0, 3⟩⟩], result := .root [] ⟨0, 0, 1⟩ } :=
  C8_merged_unexpected_chars.2 arith "w" 0 (by decide)

/-- C9: parsing "\x7b a" returns the block containing `a` together with
exactly one unterminated-block diagnostic naming "\x7d", positioned at the
end-of-input offset (3 = content length, length 1); and in general, reaching
end of input in any scope expecting a terminator appends that diagnostic at
the current position. -/
theorem C9_unterminated_block :
    parse ⟨"test", "\x7b a".data⟩ arith 1000 =
      { errors := some [⟨"Unterminated block, expected \"\x7d\"", ⟨0, 3, 1⟩⟩],
        result := .root [.block [.ident "a" ⟨0, 2, 1⟩] ⟨0, 0, 1⟩] ⟨0, 0, 1⟩ } ∧
    ∀ (g : Grammar) (content : List Char) (t : Char) (st : ScanState)
      (tokens : List Node) (fuel : Nat),
      content.length ≤ st.index →
      (⟨unterminatedMsg t, ⟨st.line, st.index, 1⟩⟩ : Diagnostic) ∈
        (parseBlockLoop g content (fuel + 1) (some t) st tokens).2.errors :=
  ⟨rfl, fun g content t st tokens fuel h =>
    parseBlockLoop_eof_unterminated g content t st tokens fuel h⟩

/-- C9 witness: the general end-of-input statement applied at a concrete
scope (content "ab", index already at the end, expecting "\x7d"). -/
theorem C9_unterminated_block_witness :
    (⟨unterminatedMsg '\x7d', ⟨0, 5, 1⟩⟩ : Diagnostic) ∈
      (parseBlockLoop arith "ab".data (0 + 1) (some '\x7d') ⟨5, 0, []⟩ []).2.errors :=
  C9_unterminated_block.2 arith "ab".data '\x7d' ⟨5, 0, []⟩ [] 0 (by decide)

/-- C10: an unknown escape contributes nothing: the parse of a document
containing the string literal "a\qb" yields the string value "ab" (both the
backslash and the q are dropped), and in general the scanner always continues
two characters past a backslash whose follower is not an escapable character,
never treating that follower as the terminator. -/
theorem C10_unknown_escape :
    parse ⟨"test", "\"a\\qb\"".data⟩ arith 1000 =
      { errors := none, result := .root [.str "ab" false ⟨0, 0, 1⟩] ⟨0, 0, 1⟩ } ∧
    ∀ (content : List Char) (interp : ScanState → List Node × ScanState)
      (fuel : Nat) (template : Bool) (termc : Char) (st : ScanState)
      (value : String) (strs : List String) (vals : List (List Node)) (c : Char),
      charAt content st.index = some '\\' →
      charAt content (st.index + 1) = some c →
      c ≠ '\\' → c ≠ 'n' → c ≠ 'r' → c ≠ 't' → c ≠ '"' →
      scanString content interp (fuel + 1) template termc st value strs vals =
        scanString content interp fuel template termc
          { st with index := st.index + 2 } value strs vals :=
  ⟨rfl, fun content interp fuel template termc st value strs vals c h0 h1 hc1 hc2 hc3 hc4 hc5 =>
    scanString_escape_skip content interp fuel template termc st value strs vals c
      h0 h1 hc1 hc2 hc3 hc4 hc5⟩

/-- C10 witness: the general escape-skip statement applied inside the
concrete literal "a\qb" at the backslash (index 2, follower 'q', terminator
the double quote). -/
theorem C10_unknown_escape_witness :
    scanString "\"a\\qb\"".data (fun s => ([], s)) (0 + 1) false '"' ⟨2, 0, []⟩ "a" [] [] =
      scanString "\"a\\qb\"".data (fun s => ([], s)) 0 false '"' ⟨4, 0, []⟩ "a" [] [] :=
  C10_unknown_escape.2 "\"a\\qb\"".data (fun s => ([], s)) 0 false '"' ⟨2, 0, []⟩ "a" [] [] 'q'
    (by decide) (by decide) (by decide) (by decide) (by decide) (by decide) (by decide)

/-- A ':' scanned directly after a scope whose last token is an identifier
rewrites that identifier into a `label_op` token (consuming it), under any
grammar whose defined tokens are nonempty and do not start with ':'. -/
theorem parseBlockLoop_colon_label_step (g : Grammar) (content : List Char)
    (fuel : Nat) (term : Option Char) (st : ScanState) (tokens : List Node)
    (name : String) (ipos : Position)
    (h : charAt content st.index = some ':')
    (hg : g.definedTokens.all (fun tok => !tok.data.isEmpty && tok.data.head? != some ':') = true)
    (hlast : tokens.getLast? = some (.ident name ipos)) :
    parseBlockLoop g content (fuel + 1) term st tokens =
      parseBlockLoop g content fuel term { st with index := st.index + 1 }
        (tokens.dropLast ++ [.labelOp name ipos]) := by
  have m1 : matchesAt content st.index ['/', '/'] = false := matchesAt_head_ne h (by decide)
  have m2 : matchesAt content st.index ['/', '*'] = false := matchesAt_head_ne h (by decide)
  have m3 : matchesAt content st.index ['\\', '\\'] = false := matchesAt_head_ne h (by decide)
  have mfind := find?_definedTokens_none h hg
  have mq : consumeQuote content st.index = none := by
    unfold consumeQuote
    rw [matchesAt_head_ne h (by decide), matchesAt_head_ne h (by decide),
      matchesAt_head_ne h (by decide), matchesAt_head_ne h (by decide)]
    rfl
  have hne : tokens.isEmpty = false := by
    cases tokens
    · simp at hlast
    · rfl
  rw [parseBlockLoop.eq_def]
  simp only [h, m1, m2, m3, mfind, mq, hne, hlast,
    show isNumberChar ':' = false from rfl,
    Bool.false_eq_true, if_false, reduceIte, Bool.not_false, Bool.and_true, decide_True,
    if_true, ite_true]
/-- A ':' scanned when the scope's last token exists but is not an identifier
appends a strong separator token. -/
theorem parseBlockLoop_colon_sep_step (g : Grammar) (content : List Char)
    (fuel : Nat) (term : Option Char) (st : ScanState) (tokens : List Node) (n : Node)
    (h : charAt content st.index = some ':')
    (hg : g.definedTokens.all (fun tok => !tok.data.isEmpty && tok.data.head? != some ':') = true)
    (hlast : tokens.getLast? = some n) (hkind : n.kind ≠ "ident") :
    parseBlockLoop g content (fuel + 1) term st tokens =
      parseBlockLoop g content fuel term { st with index := st.index + 1 }
        (tokens ++ [.separator true ⟨st.line, st.index, 1⟩]) := by
  have m1 : matchesAt content st.index ['/', '/'] = false := matchesAt_head_ne h (by decide)
  have m2 : matchesAt content st.index ['/', '*'] = false := matchesAt_head_ne h (by decide)
  have m3 : matchesAt content st.index ['\\', '\\'] = false := matchesAt_head_ne h (by decide)
  have mfind := find?_definedTokens_none h hg
  have mq : consumeQuote content st.index = none := by
    unfold consumeQuote
    rw [matchesAt_head_ne h (by decide), matchesAt_head_ne h (by decide),
      matchesAt_head_ne h (by decide), matchesAt_head_ne h (by decide)]
    rfl
  have hne : tokens.isEmpty = false := by
    cases tokens
    · simp at hlast
    · rfl
  cases n <;> (try exact absurd rfl hkind) <;>
    (rw [parseBlockLoop.eq_def]
     simp only [h, m1, m2, m3, mfind, mq, hne, hlast,
       show isNumberChar ':' = false from rfl,
       Bool.false_eq_true, if_false, reduceIte, Bool.not_false, Bool.and_true, decide_True,
       if_true, ite_true])

/-- A ':' scanned as the first token of its scope (no previous token) falls
through to the unexpected-character branch: no separator is produced and a
diagnostic is appended or merged. -/
theorem parseBlockLoop_colon_first_step (g : Grammar) (content : List Char)
    (fuel : Nat) (term : Option Char) (st : ScanState)
    (h : charAt content st.index = some ':')
    (hg : g.definedTokens.all (fun tok => !tok.data.isEmpty && tok.data.head? != some ':') = true)
    (hterm : term ≠ some ':') :
    parseBlockLoop g content (fuel + 1) term st [] =
      parseBlockLoop g content fuel term
        { st with index := st.index + 1
                  errors := pushUnexpectedChar st.errors ⟨st.line, st.index, 1⟩ } [] := by
  have m1 : matchesAt content st.index ['/', '/'] = false := matchesAt_head_ne h (by decide)
  have m2 : matchesAt content st.index ['/', '*'] = false := matchesAt_head_ne h (by decide)
  have m3 : matchesAt content st.index ['\\', '\\'] = false := matchesAt_head_ne h (by decide)
  have mfind := find?_definedTokens_none h hg
  have mq : consumeQuote content st.index = none := by
    unfold consumeQuote
    rw [matchesAt_head_ne h (by decide), matchesAt_head_ne h (by decide),
      matchesAt_head_ne h (by decide), matchesAt_head_ne h (by decide)]
    rfl
  have hterm' : (term = some ':') = False := by simp [hterm]
  rw [parseBlockLoop.eq_def]
  simp only [h, m1, m2, m3, mfind, mq, hterm',
    show isNumberChar ':' = false from rfl,
    show isWordChar ':' = false from rfl,
    show isWhitespaceChar ':' = false from rfl,
    List.isEmpty_nil, Bool.not_true, Bool.and_false, Bool.false_eq_true, if_false,
    reduceIte, decide_False, decide_True]
  simp

/-- C7 amended: a ':' directly after an ident token rewrites it into a single
`label_op` token; a ':' in a scope whose last token is not an ident becomes a
strong separator; but a ':' as the first token of its scope (no previous
token) is not scanned as a separator - it falls to the unexpected-character
branch. All three parts hold for every grammar whose defined tokens are
nonempty and do not start with ':'. -/
theorem C7_amended :
    (∀ (g : Grammar) (content : List Char) (fuel : Nat) (term : Option Char)
       (st : ScanState) (tokens : List Node) (name : String) (ipos : Position),
      charAt content st.index = some ':' →
      g.definedTokens.all (fun tok => !tok.data.isEmpty && tok.data.head? != some ':') = true →
      tokens.getLast? = some (.ident name ipos) →
      parseBlockLoop g content (fuel + 1) term st tokens =
        parseBlockLoop g content fuel term { st with index := st.index + 1 }
          (tokens.dropLast ++ [.labelOp name ipos])) ∧
    (∀ (g : Grammar) (content : List Char) (fuel : Nat) (term : Option Char)
       (st : ScanState) (tokens : List Node) (n : Node),
      charAt content st.index = some ':' →
      g.definedTokens.all (fun tok => !tok.data.isEmpty && tok.data.head? != some ':') = true →
      tokens.getLast? = some n → n.kind ≠ "ident" →
      parseBlockLoop g content (fuel + 1) term st tokens =
        parseBlockLoop g content fuel term { st with index := st.index + 1 }
          (tokens ++ [.separator true ⟨st.line, st.index, 1⟩])) ∧
    (∀ (g : Grammar) (content : List Char) (fuel : Nat) (term : Option Char) (st : ScanState),
      charAt content st.index = some ':' →
      g.definedTokens.all (fun tok => !tok.data.isEmpty && tok.data.head? != some ':') = true →
      term ≠ some ':' →
      parseBlockLoop g content (fuel + 1) term st [] =
        parseBlockLoop g content fuel term
          { st with index := st.index + 1
                    errors := pushUnexpectedChar st.errors ⟨st.line, st.index, 1⟩ } []) :=
  ⟨fun g content fuel term st tokens name ipos h hg hlast =>
      parseBlockLoop_colon_label_step g content fuel term st tokens name ipos h hg hlast,
   fun g content fuel term st tokens n h hg hlast hkind =>
      parseBlockLoop_colon_sep_step g content fuel term st tokens n h hg hlast hkind,
   fun g content fuel term st h hg hterm =>
      parseBlockLoop_colon_first_step g content fuel term st h hg hterm⟩

/-- C7 witness: the three amended statements applied concretely: ':' after
the ident `a` in "a:", ':' after the number 1 in "1:", and ':' opening the
scope of ":". -/
theorem C7_amended_witness :
    (parseBlockLoop arith "a:".data (0 + 1) none ⟨1, 0, []⟩ [.ident "a" ⟨0, 0, 1⟩] =
      parseBlockLoop arith "a:".data 0 none ⟨2, 0, []⟩ [.labelOp "a" ⟨0, 0, 1⟩]) ∧
    (parseBlockLoop arith "1:".data (0 + 1) none ⟨1, 0, []⟩ [.number (.num 1) ⟨0, 0, 1⟩] =
      parseBlockLoop arith "1:".data 0 none ⟨2, 0, []⟩
        [.number (.num 1) ⟨0, 0, 1⟩, .separator true ⟨0, 1, 1⟩]) ∧
    (parseBlockLoop arith ":".data (0 + 1) none ⟨0, 0, []⟩ [] =
      parseBlockLoop arith ":".data 0 none
        ⟨1, 0, [⟨"Unexpected character", ⟨0, 0, 1⟩⟩]⟩ []) :=
  ⟨C7_amended.1 arith "a:".data 0 none ⟨1, 0, []⟩ [.ident "a" ⟨0, 0, 1⟩] "a" ⟨0, 0, 1⟩
      (by decide) (by decide) rfl,
   C7_amended.2.1 arith "1:".data 0 none ⟨1, 0, []⟩ [.number (.num 1) ⟨0, 0, 1⟩]
      (.number (.num 1) ⟨0, 0, 1⟩) (by decide) (by decide) rfl (by decide),
   C7_amended.2.2 arith ":".data 0 none ⟨0, 0, []⟩ (by decide) (by decide) (by decide)⟩


theorem good_cons {x : Node} {l : List Node}
    (hx : FormatArityOk x) (hl : ∀ n ∈ l, FormatArityOk n) :
    ∀ n ∈ x :: l, FormatArityOk n := by
  intro n hn
  rcases List.mem_cons.mp hn with rfl | hn
  · exact hx
  · exact hl _ hn

theorem good_append_one {l : List Node} {x : Node}
    (hl : ∀ n ∈ l, FormatArityOk n) (hx : FormatArityOk x) :
    ∀ n ∈ l ++ [x], FormatArityOk n := by
  intro n hn
  rcases List.mem_append.mp hn with hn | hn
  · exact hl _ hn
  · rw [List.mem_singleton.mp hn]; exact hx

theorem good_dropLast {l : List Node} (hl : ∀ n ∈ l, FormatArityOk n) :
    ∀ n ∈ l.dropLast, FormatArityOk n :=
  fun _ hn => hl _ (List.mem_of_mem_dropLast hn)

theorem childrenOf_good {n : Node} (h : FormatArityOk n) :
    ∀ c ∈ n.childrenOf, FormatArityOk c := by
  cases h <;> simp [Node.childrenOf] <;> assumption

theorem takeOperand_sub {l r : List Node} {x : Node} (h : takeOperand l = some (x, r)) :
    x ∈ l ∧ ∀ y ∈ r, y ∈ l := by
  match l with
  | [] => simp [takeOperand] at h
  | s :: rest =>
    rw [takeOperand.eq_def] at h
    simp only [] at h
    split at h
    · match rest with
      | [] => simp at h
      | t :: r' =>
        simp only [Option.some.injEq, Prod.mk.injEq] at h
        obtain ⟨rfl, rfl⟩ := h
        exact ⟨by simp, fun y hy => by simp [hy]⟩
    · simp only [Option.some.injEq, Prod.mk.injEq] at h
      obtain ⟨rfl, rfl⟩ := h
      exact ⟨by simp, fun y hy => by simp [hy]⟩

theorem collectArgsLoop_sub : ∀ (l : List Node),
    (∀ y ∈ (collectArgsLoop l).1, y ∈ l) ∧ (∀ y ∈ (collectArgsLoop l).2, y ∈ l) := by
  intro l
  induction l with
  | nil => simp [collectArgsLoop]
  | cons e rest ih =>
    rw [collectArgsLoop]
    split
    · rcases hc : collectArgsLoop rest with ⟨cs, r⟩
      rw [hc] at ih
      simp only [hc]
      constructor
      · intro y hy
        split at hy
        · rcases List.mem_cons.mp hy with rfl | hy
          · simp
          · exact List.mem_cons_of_mem _ (ih.1 _ hy)
        · exact List.mem_cons_of_mem _ (ih.1 _ hy)
      · intro y hy
        exact List.mem_cons_of_mem _ (ih.2 _ hy)
    · exact ⟨by simp, fun y hy => hy⟩

theorem invocationInvoke_good {ty : String} {tgt : Option String}
    {before after b' r' : List Node} {cur : Node}
    (h : invocationInvoke ty tgt before cur after = some (b', r'))
    (hb : ∀ n ∈ before, FormatArityOk n) (hc : FormatArityOk cur)
    (ha : ∀ n ∈ after, FormatArityOk n) :
    (∀ n ∈ b', FormatArityOk n) ∧ (∀ n ∈ r', FormatArityOk n) := by
  unfold invocationInvoke at h
  split at h
  · match hbef : before with
    | [] => simp at h
    | p :: ps =>
      simp only [] at h
      split at h
      · have hp : FormatArityOk p := hb p (by simp)
        have hps : ∀ n ∈ ps, FormatArityOk n := fun n hn => hb n (by simp [hn])
        split at h
        · simp only [Option.some.injEq, Prod.mk.injEq] at h
          obtain ⟨rfl, rfl⟩ := h
          refine ⟨good_cons ?_ hps, ha⟩
          exact .invocation _ _ _ _ hp (childrenOf_good hc) (by simp)
        · simp only [Option.some.injEq, Prod.mk.injEq] at h
          obtain ⟨rfl, rfl⟩ := h
          refine ⟨good_cons ?_ hps, ha⟩
          exact .invocation _ _ _ _ (.ident _ _) (good_cons hp (childrenOf_good hc)) (by simp)
      · exact absurd h (by simp)
  · exact absurd h (by simp)

theorem keywordInvoke_good {before after b' r' : List Node} {cur : Node}
    (h : keywordInvoke before cur after = some (b', r'))
    (hb : ∀ n ∈ before, FormatArityOk n) (hc : FormatArityOk cur)
    (ha : ∀ n ∈ after, FormatArityOk n) :
    (∀ n ∈ b', FormatArityOk n) ∧ (∀ n ∈ r', FormatArityOk n) := by
  unfold keywordInvoke at h
  split at h
  · rename_i name pos
    match haft : after with
    | [] => simp at h
    | e :: rest =>
      simp only [] at h
      split at h
      · simp at h
      · rcases hcol : collectArgsLoop (e :: rest) with ⟨cs, rem⟩
        rw [hcol] at h
        simp only [] at h
        split at h
        · simp at h
        · simp only [Option.some.injEq, Prod.mk.injEq] at h
          obtain ⟨rfl, rfl⟩ := h
          have hsub := collectArgsLoop_sub (e :: rest)
          rw [hcol] at hsub
          refine ⟨hb, good_cons ?_ (fun n hn => ha _ (hsub.2 _ hn))⟩
          exact .invocation _ _ _ _ (.ident _ _) (fun n hn => ha _ (hsub.1 _ hn)) (by simp)
  · simp at h

theorem blockBindingInvoke_good {before after b' r' : List Node} {cur : Node}
    (h : blockBindingInvoke before cur after = some (b', r'))
    (hb : ∀ n ∈ before, FormatArityOk n) (hc : FormatArityOk cur)
    (ha : ∀ n ∈ after, FormatArityOk n) :
    (∀ n ∈ b', FormatArityOk n) ∧ (∀ n ∈ r', FormatArityOk n) := by
  cases cur with
  | ident name p =>
    simp only [blockBindingInvoke] at h
    cases after with
    | nil => simp at h
    | cons spec rest =>
      (try simp only [if_true] at h)
      split at h
      · simp at h
      · rename_i bnode r heq
        simp only [Option.some.injEq, Prod.mk.injEq] at h
        obtain ⟨rfl, rfl⟩ := h
        have hspec : FormatArityOk spec := ha spec (by simp)
        have hrest : ∀ n ∈ rest, FormatArityOk n := fun n hn => ha n (by simp [hn])
        have hbr : FormatArityOk bnode ∧ ∀ n ∈ r, FormatArityOk n := by
          split at heq
          · simp only [Option.some.injEq, Prod.mk.injEq] at heq
            obtain ⟨rfl, rfl⟩ := heq
            exact ⟨hspec, hrest⟩
          · split at heq
            · cases rest with
              | nil => simp at heq
              | cons b r2 =>
                simp only [Option.some.injEq, Prod.mk.injEq] at heq
                obtain ⟨rfl, rfl⟩ := heq
                exact ⟨hrest _ (by simp), fun n hn => hrest n (by simp [hn])⟩
            · simp at heq
        refine ⟨good_cons (.invocation _ _ _ _ (.ident _ _) (by simp) ?_) hb, hbr.2⟩
        intro x hx
        exact (show bnode = x by simpa using hx) ▸ hbr.1
  | group cs p =>
    simp only [blockBindingInvoke] at h
    cases after with
    | nil => simp at h
    | cons spec rest =>
      (try simp only [if_true] at h)
      split at h
      · simp at h
      · rename_i bnode r heq
        simp only [Option.some.injEq, Prod.mk.injEq] at h
        obtain ⟨rfl, rfl⟩ := h
        have hspec : FormatArityOk spec := ha spec (by simp)
        have hrest : ∀ n ∈ rest, FormatArityOk n := fun n hn => ha n (by simp [hn])
        have hbr : FormatArityOk bnode ∧ ∀ n ∈ r, FormatArityOk n := by
          split at heq
          · simp only [Option.some.injEq, Prod.mk.injEq] at heq
            obtain ⟨rfl, rfl⟩ := heq
            exact ⟨hspec, hrest⟩
          · split at heq
            · cases rest with
              | nil => simp at heq
              | cons b r2 =>
                simp only [Option.some.injEq, Prod.mk.injEq] at heq
                obtain ⟨rfl, rfl⟩ := heq
                exact ⟨hrest _ (by simp), fun n hn => hrest n (by simp [hn])⟩
            · simp at heq
        refine ⟨good_cons (.invocation _ _ _ _ (.ident _ _) ?_ ?_) hb, hbr.2⟩
        · intro c hcm
          cases hc with
          | group _ _ hg => exact hg c hcm
        · intro x hx
          exact (show bnode = x by simpa using hx) ▸ hbr.1
  | invocation t cs blk p =>
    cases blk with
    | some b0 => simp [blockBindingInvoke] at h
    | none =>
      simp only [blockBindingInvoke] at h
      cases after with
      | nil => simp at h
      | cons spec rest =>
        (try simp only [if_true] at h)
        split at h
        · simp at h
        · rename_i bnode r heq
          simp only [Option.some.injEq, Prod.mk.injEq] at h
          obtain ⟨rfl, rfl⟩ := h
          have hspec : FormatArityOk spec := ha spec (by simp)
          have hrest : ∀ n ∈ rest, FormatArityOk n := fun n hn => ha n (by simp [hn])
          have hbr : FormatArityOk bnode ∧ ∀ n ∈ r, FormatArityOk n := by
            split at heq
            · simp only [Option.some.injEq, Prod.mk.injEq] at heq
              obtain ⟨rfl, rfl⟩ := heq
              exact ⟨hspec, hrest⟩
            · split at heq
              · cases rest with
                | nil => simp at heq
                | cons b r2 =>
                  simp only [Option.some.injEq, Prod.mk.injEq] at heq
                  obtain ⟨rfl, rfl⟩ := heq
                  exact ⟨hrest _ (by simp), fun n hn => hrest n (by simp [hn])⟩
              · simp at heq
          cases hc with
          | invocation _ _ _ _ ht hcs hblk =>
            refine ⟨good_cons (.invocation _ _ _ _ ht hcs ?_) hb, hbr.2⟩
            intro x hx
            exact (show bnode = x by simpa using hx) ▸ hbr.1
  | root cs p => simp [blockBindingInvoke] at h
  | block cs p => simp [blockBindingInvoke] at h
  | tuple cs p => simp [blockBindingInvoke] at h
  | label l t p => simp [blockBindingInvoke] at h
  | str v fl p => simp [blockBindingInvoke] at h
  | number v p => simp [blockBindingInvoke] at h
  | format ss vs p => simp [blockBindingInvoke] at h
  | operator tk p => simp [blockBindingInvoke] at h
  | separator sg p => simp [blockBindingInvoke] at h
  | labelOp n p => simp [blockBindingInvoke] at h

theorem labelingInvoke_good {before after b' r' : List Node} {cur : Node}
    (h : labelingInvoke before cur after = some (b', r'))
    (hb : ∀ n ∈ before, FormatArityOk n) (hc : FormatArityOk cur)
    (ha : ∀ n ∈ after, FormatArityOk n) :
    (∀ n ∈ b', FormatArityOk n) ∧ (∀ n ∈ r', FormatArityOk n) := by
  unfold labelingInvoke at h
  split at h
  · match haft : after with
    | [] => simp at h
    | t :: r =>
      simp only [] at h
      split at h
      · simp only [Option.some.injEq, Prod.mk.injEq] at h
        obtain ⟨rfl, rfl⟩ := h
        refine ⟨hb, good_cons (.label _ _ _ (ha t (by simp)))
          (fun n hn => ha n (by simp [hn]))⟩
      · simp at h
  · simp at h

theorem invokeOp_good {op : ParserOperation} {before after b' r' : List Node} {cur : Node}
    (h : invokeOp op before cur after = some (b', r'))
    (hb : ∀ n ∈ before, FormatArityOk n) (hc : FormatArityOk cur)
    (ha : ∀ n ∈ after, FormatArityOk n) :
    (∀ n ∈ b', FormatArityOk n) ∧ (∀ n ∈ r', FormatArityOk n) := by
  cases op with
  | op o => simp [invokeOp] at h
  | invocation ty tgt => exact invocationInvoke_good h hb hc ha
  | keywordBinding => exact keywordInvoke_good h hb hc ha
  | blockBinding => exact blockBindingInvoke_good h hb hc ha
  | labeling => exact labelingInvoke_good h hb hc ha

theorem tryOps_good {ops : List ParserOperation} {before after b' r' : List Node} {cur : Node}
    (h : tryOps ops before cur after = some (b', r'))
    (hb : ∀ n ∈ before, FormatArityOk n) (hc : FormatArityOk cur)
    (ha : ∀ n ∈ after, FormatArityOk n) :
    (∀ n ∈ b', FormatArityOk n) ∧ (∀ n ∈ r', FormatArityOk n) := by
  induction ops with
  | nil => simp [tryOps] at h
  | cons o rest ih =>
    rw [tryOps] at h
    split at h
    · rename_i res heq
      obtain rfl : res = (b', r') := by simpa using h
      exact invokeOp_good heq hb hc ha
    · exact ih h

theorem runPassAux_good (g : Grammar) (i : Nat) (ops : List ParserOperation) :
    ∀ (fuel : Nat) (before rest : List Node),
      (∀ n ∈ before, FormatArityOk n) → (∀ n ∈ rest, FormatArityOk n) →
      ∀ n ∈ runPassAux g i ops fuel before rest, FormatArityOk n := by
  intro fuel
  induction fuel with
  | zero =>
    intro before rest hb hr n hn
    rw [runPassAux] at hn
    rcases List.mem_append.mp hn with hn | hn
    · exact hb _ (List.mem_reverse.mp hn)
    · exact hr _ hn
  | succ fuel ih =>
    intro before rest hb hr
    match rest with
    | [] =>
      intro n hn
      rw [runPassAux] at hn
      exact hb _ (List.mem_reverse.mp hn)
    | cur :: after =>
      have hcur : FormatArityOk cur := hr cur (by simp)
      have hafter : ∀ n ∈ after, FormatArityOk n := fun n hn => hr n (by simp [hn])
      cases cur with
      | operator tok pos =>
        intro n hn
        rw [runPassAux.eq_def] at hn
        simp only [] at hn
        split at hn
        · exact ih _ _ (good_cons hcur hb) hafter n hn
        · split at hn
          · exact ih _ _ (good_cons hcur hb) hafter n hn
          · rename_i binding hbind emitName pres hlook
            split at hn
            · split at hn
              · -- prefix
                split at hn
                · rename_i operand after' htake
                  have hsub := takeOperand_sub htake
                  refine ih _ _ (good_cons ?_ hb) (fun y hy => hafter _ (hsub.2 _ hy)) n hn
                  exact .invocation _ _ _ _ (.ident _ _)
                    (fun c hcm => by
                      rcases List.mem_singleton.mp hcm with rfl
                      exact hafter _ hsub.1) (by simp)
                · exact ih _ _ (good_cons hcur hb) hafter n hn
              · -- infix
                split at hn
                · rename_i a before' b after' htake1 htake2
                  have hsub1 := takeOperand_sub htake1
                  have hsub2 := takeOperand_sub htake2
                  refine ih _ _ (good_cons ?_ (fun y hy => hb _ (hsub1.2 _ hy)))
                    (fun y hy => hafter _ (hsub2.2 _ hy)) n hn
                  refine .invocation _ _ _ _ (.ident _ _) ?_ (by simp)
                  intro c hcm
                  rcases List.mem_cons.mp hcm with rfl | hcm
                  · exact hb _ hsub1.1
                  · rcases List.mem_singleton.mp hcm with rfl
                    exact hafter _ hsub2.1
                · exact ih _ _ (good_cons hcur hb) hafter n hn
              · -- postfix
                split at hn
                · rename_i a before' htake
                  have hsub := takeOperand_sub htake
                  refine ih _ _ (good_cons ?_ (fun y hy => hb _ (hsub.2 _ hy))) hafter n hn
                  exact .invocation _ _ _ _ (.ident _ _)
                    (fun c hcm => by
                      rcases List.mem_singleton.mp hcm with rfl
                      exact hb _ hsub.1) (by simp)
                · exact ih _ _ (good_cons hcur hb) hafter n hn
            · exact ih _ _ (good_cons hcur hb) hafter n hn
      | root cs p =>
        intro n hn
        rw [runPassAux.eq_def] at hn
        simp only [] at hn
        split at hn
        · rename_i b' r' heq
          have := tryOps_good heq hb hcur hafter
          exact ih _ _ this.1 this.2 n hn
        · exact ih _ _ (good_cons hcur hb) hafter n hn
      | block cs p =>
        intro n hn
        rw [runPassAux.eq_def] at hn
        simp only [] at hn
        split at hn
        · rename_i b' r' heq
          have := tryOps_good heq hb hcur hafter
          exact ih _ _ this.1 this.2 n hn
        · exact ih _ _ (good_cons hcur hb) hafter n hn
      | group cs p =>
        intro n hn
        rw [runPassAux.eq_def] at hn
        simp only [] at hn
        split at hn
        · rename_i b' r' heq
          have := tryOps_good heq hb hcur hafter
          exact ih _ _ this.1 this.2 n hn
        · exact ih _ _ (good_cons hcur hb) hafter n hn
      | tuple cs p =>
        intro n hn
        rw [runPassAux.eq_def] at hn
        simp only [] at hn
        split at hn
        · rename_i b' r' heq
          have := tryOps_good heq hb hcur hafter
          exact ih _ _ this.1 this.2 n hn
        · exact ih _ _ (good_cons hcur hb) hafter n hn
      | ident nm p =>
        intro n hn
        rw [runPassAux.eq_def] at hn
        simp only [] at hn
        split at hn
        · rename_i b' r' heq
          have := tryOps_good heq hb hcur hafter
          exact ih _ _ this.1 this.2 n hn
        · exact ih _ _ (good_cons hcur hb) hafter n hn
      | label l t p =>
        intro n hn
        rw [runPassAux.eq_def] at hn
        simp only [] at hn
        split at hn
        · rename_i b' r' heq
          have := tryOps_good heq hb hcur hafter
          exact ih _ _ this.1 this.2 n hn
        · exact ih _ _ (good_cons hcur hb) hafter n hn
      | str v fl p =>
        intro n hn
        rw [runPassAux.eq_def] at hn
        simp only [] at hn
        split at hn
        · rename_i b' r' heq
          have := tryOps_good heq hb hcur hafter
          exact ih _ _ this.1 this.2 n hn
        · exact ih _ _ (good_cons hcur hb) hafter n hn
      | number v p =>
        intro n hn
        rw [runPassAux.eq_def] at hn
        simp only [] at hn
        split at hn
        · rename_i b' r' heq
          have := tryOps_good heq hb hcur hafter
          exact ih _ _ this.1 this.2 n hn
        · exact ih _ _ (good_cons hcur hb) hafter n hn
      | format ss vs p =>
        intro n hn
        rw [runPassAux.eq_def] at hn
        simp only [] at hn
        split at hn
        · rename_i b' r' heq
          have := tryOps_good heq hb hcur hafter
          exact ih _ _ this.1 this.2 n hn
        · exact ih _ _ (good_cons hcur hb) hafter n hn
      | separator sg p =>
        intro n hn
        rw [runPassAux.eq_def] at hn
        simp only [] at hn
        split at hn
        · rename_i b' r' heq
          have := tryOps_good heq hb hcur hafter
          exact ih _ _ this.1 this.2 n hn
        · exact ih _ _ (good_cons hcur hb) hafter n hn
      | labelOp nm p =>
        intro n hn
        rw [runPassAux.eq_def] at hn
        simp only [] at hn
        split at hn
        · rename_i b' r' heq
          have := tryOps_good heq hb hcur hafter
          exact ih _ _ this.1 this.2 n hn
        · exact ih _ _ (good_cons hcur hb) hafter n hn
      | invocation t cs blk p =>
        intro n hn
        rw [runPassAux.eq_def] at hn
        simp only [] at hn
        split at hn
        · rename_i b' r' heq
          have := tryOps_good heq hb hcur hafter
          exact ih _ _ this.1 this.2 n hn
        · exact ih _ _ (good_cons hcur hb) hafter n hn

theorem runStages_good (g : Grammar) (fuel : Nat) :
    ∀ (stages : List (Nat × List ParserOperation)) (tokens : List Node),
      (∀ n ∈ tokens, FormatArityOk n) →
      ∀ n ∈ runStages g fuel stages tokens, FormatArityOk n := by
  intro stages
  induction stages with
  | nil => intro tokens h n hn; rw [runStages] at hn; exact h n hn
  | cons s rest ih =>
    obtain ⟨i, ops⟩ := s
    intro tokens h n hn
    rw [runStages] at hn
    exact ih _ (runPassAux_good g i ops fuel [] tokens (by simp) h) n hn

theorem cleanupLoop_subset :
    ∀ (first : Bool) (l : List Node) (errors : List Diagnostic),
      ∀ n ∈ (cleanupLoop first l errors).1, n ∈ l := by
  intro first l errors
  induction first, l, errors using cleanupLoop.induct with
  | case1 x errors => simp [cleanupLoop]
  | case2 first t rest errors hcond ih =>
    rw [cleanupLoop.eq_def]
    simp only [hcond, if_true]
    intro n hn
    exact List.mem_cons_of_mem _ (ih n hn)
  | case3 first t errors hcond hkind =>
    rw [cleanupLoop.eq_def]
    simp [hcond, hkind]
  | case4 first t errors hcond hkind p ps hsep e1 ns es heq ih =>
    rw [cleanupLoop.eq_def]
    simp only [hcond, hkind, hsep, heq, if_true, if_false, ite_true, ite_false, reduceIte]
    rw [heq] at ih
    simp only [decide_False, Bool.and_false, Bool.false_eq_true, if_false, reduceIte,
      ne_eq, hkind, not_false_eq_true, if_true, ite_true]
    intro n hn
    rcases List.mem_cons.mp hn with rfl | hn
    · simp
    · simp only [List.mem_cons]
      right; right
      exact ih n hn
  | case5 first t errors hcond hkind p ps hsep e1 e2 ns es heq ih =>
    rw [cleanupLoop.eq_def]
    rw [heq] at ih
    simp only [hcond, hkind, hsep, heq, if_true, if_false, ite_true, ite_false, reduceIte,
      decide_False, Bool.and_false, Bool.false_eq_true, ne_eq, not_false_eq_true]
    intro n hn
    rcases List.mem_cons.mp hn with rfl | hn
    · simp
    · exact List.mem_cons_of_mem _ (ih n hn)
  | case6 first t rest errors hcond hkind ns es heq ih =>
    rw [cleanupLoop.eq_def]
    rw [heq] at ih
    simp only [Bool.not_eq_true] at hcond
    simp only [hcond, hkind, heq, if_true, if_false, ite_true, ite_false, reduceIte,
      Bool.false_eq_true, ne_eq, not_not, Decidable.not_not]
    intro n hn
    rcases List.mem_cons.mp hn with rfl | hn
    · simp
    · exact List.mem_cons_of_mem _ (ih n hn)

theorem processTokens_good (g : Grammar) (fuel : Nat) (tokens : List Node)
    (errors : List Diagnostic) (h : ∀ n ∈ tokens, FormatArityOk n) :
    ∀ n ∈ (processTokens g fuel tokens errors).1, FormatArityOk n := by
  unfold processTokens
  intro n hn
  exact runStages_good g fuel _ tokens h n
    (cleanupLoop_subset true (runStages g fuel g.passes.enum tokens) errors n hn)

theorem lookup_mem {β : Type} {l : List (String × β)} {k : String} {v : β}
    (h : l.lookup k = some v) : (k, v) ∈ l := by
  induction l with
  | nil => simp [List.lookup] at h
  | cons p rest ih =>
    rw [List.lookup] at h
    split at h
    · rename_i heq
      simp only [Option.some.injEq] at h
      have hk : k = p.1 := by simpa using heq
      subst h
      have hpe : (k, p.2) = p := by rw [hk]
      rw [hpe]
      exact List.mem_cons_self _ _
    · exact List.mem_cons_of_mem _ (ih h)

theorem scanString_good (content : List Char) (interp : ScanState → List Node × ScanState)
    (hinterp : ∀ s, ∀ n ∈ (interp s).1, FormatArityOk n) :
    ∀ (fuel : Nat) (template : Bool) (termc : Char) (st : ScanState)
      (value : String) (strs : List String) (vals : List (List Node)),
      (∀ v ∈ vals, ∀ n ∈ v, FormatArityOk n) →
      (∀ v ∈ (scanString content interp fuel template termc st value strs vals).2.2.1,
        ∀ n ∈ v, FormatArityOk n) ∧
      (scanString content interp fuel template termc st value strs vals).2.1.length
          + vals.length =
        (scanString content interp fuel template termc st value strs vals).2.2.1.length
          + strs.length := by
  intro fuel
  induction fuel with
  | zero =>
    intro template termc st value strs vals hv
    rw [scanString]
    exact ⟨hv, Nat.add_comm _ _⟩
  | succ fuel ih =>
    intro template termc st value strs vals hv
    rw [scanString.eq_def]
    cases hch : charAt content st.index with
    | none => simp only [hch]; exact ⟨hv, Nat.add_comm _ _⟩
    | some c =>
      simp only [hch]
      split
      · rcases hi : interp { st with index := st.index + 2 } with ⟨nodes, st'⟩
        simp only [hi]
        have hgood : ∀ v ∈ vals ++ [nodes], ∀ n ∈ v, FormatArityOk n := by
          intro v hvm n hnm
          rcases List.mem_append.mp hvm with hvm | hvm
          · exact hv v hvm n hnm
          · rw [List.mem_singleton.mp hvm] at hnm
            have := hinterp { st with index := st.index + 2 }
            rw [hi] at this
            exact this n hnm
        have hres := ih template termc st' "" (strs ++ [value]) (vals ++ [nodes]) hgood
        refine ⟨hres.1, ?_⟩
        have hlen := hres.2
        simp only [List.length_append, List.length_singleton] at hlen
        omega
      · split
        · split
          · exact ⟨hv, Nat.add_comm _ _⟩
          · exact ih template termc _ _ strs vals hv
        · split
          · exact ⟨hv, Nat.add_comm _ _⟩
          · exact ih template termc _ _ strs vals hv

theorem parseBlockLoop_good (g : Grammar) (hgd : GrammarDefsOk g) (content : List Char) :
    ∀ (fuel : Nat) (term : Option Char) (st : ScanState) (tokens : List Node),
      (∀ n ∈ tokens, FormatArityOk n) →
      ∀ n ∈ (parseBlockLoop g content fuel term st tokens).1, FormatArityOk n := by
  intro fuel
  induction fuel with
  | zero =>
    intro term st tokens h n hn
    rw [parseBlockLoop] at hn
    exact h n hn
  | succ fuel ih =>
    intro term st tokens h
    rw [parseBlockLoop.eq_def]
    simp only []
    split
    · -- end of input
      intro n hn
      exact processTokens_good g fuel tokens _ h n hn
    · -- a current character exists
      rename_i curr hcurr
      cases hb1 : matchesAt content st.index ['/', '/'] with
      | true =>
        rw [if_pos rfl]
        exact ih _ _ _ h
      | false =>
      rw [if_neg (by decide)]
      cases hb2 : matchesAt content st.index ['/', '*'] with
      | true =>
        rw [if_pos rfl]
        exact ih _ _ _ h
      | false =>
      rw [if_neg (by decide)]
      cases hfind : List.find? (fun tok => matchesAt content st.index tok.data) g.definedTokens with
      | some tok =>
        simp only []
        cases hlook : List.lookup tok g.definitionLookup with
        | some f =>
          simp only []
          exact ih _ _ _ (good_append_one h (hgd (tok, f) (lookup_mem hlook) _))
        | none =>
          simp only []
          exact ih _ _ _ (good_append_one h (.operator _ _))
      | none =>
      simp only []
      cases hb3 : isNumberChar curr with
      | true =>
        rw [if_pos rfl]
        exact ih _ _ _ (good_append_one h (.number _ _))
      | false =>
      rw [if_neg (by decide)]
      cases hb4 : matchesAt content st.index ['\\', '\\'] with
      | true =>
        rw [if_pos rfl]
        split
        · exact ih _ _ _ (good_append_one (good_dropLast h) (.str _ _ _))
        · exact ih _ _ _ (good_append_one h (.str _ _ _))
      | false =>
      rw [if_neg (by decide)]
      cases hq : consumeQuote content st.index with
      | some q =>
        obtain ⟨template, qc, i'⟩ := q
        simp only []
        have hsg := scanString_good content
          (fun s => parseBlockLoop g content fuel (some '\x7d') s [])
          (fun s => ih (some '\x7d') s [] (by simp))
          fuel template qc { st with index := i' } "" [] [] (by simp)
        split
        · refine ih _ _ _ (good_append_one h (.format _ _ _ ?_ hsg.1))
          have hlen := hsg.2
          simp only [List.length_nil, Nat.add_zero] at hlen
          simp [hlen]
        · exact ih _ _ _ (good_append_one h (.str _ _ _))
      | none =>
      simp only []
      cases hb5 : decide (curr = ':') && !tokens.isEmpty with
      | true =>
        rw [if_pos rfl]
        split
        · exact ih _ _ _ (good_append_one (good_dropLast h) (.labelOp _ _))
        · exact ih _ _ _ (good_append_one h (.separator _ _))
      | false =>
      rw [if_neg (by decide)]
      cases hb6 : isWordChar curr with
      | true =>
        rw [if_pos rfl]
        exact ih _ _ _ (good_append_one h (.ident _ _))
      | false =>
      rw [if_neg (by decide)]
      by_cases hterm : term = some curr
      case pos =>
        rw [if_pos hterm]
        intro n hn
        exact processTokens_good g fuel tokens _ h n hn
      case neg =>
      rw [if_neg hterm]
      cases hb7 : isWhitespaceChar curr with
      | true =>
        rw [if_pos rfl]
        exact ih _ _ _ h
      | false =>
      rw [if_neg (by decide)]
      by_cases hnl : curr = '\n'
      case pos =>
        rw [if_pos hnl]
        split
        · split
          · exact ih _ _ _ h
          · exact ih _ _ _ (good_append_one h (.separator _ _))
        · exact ih _ _ _ (good_append_one h (.separator _ _))
      case neg =>
      rw [if_neg hnl]
      by_cases hcm : curr = ','
      case pos =>
        rw [if_pos hcm]
        split
        · split
          · exact ih _ _ _ h
          · exact ih _ _ _ (good_append_one h (.separator _ _))
        · exact ih _ _ _ (good_append_one h (.separator _ _))
      case neg =>
      rw [if_neg hcm]
      by_cases hpar : curr = '('
      case pos =>
        rw [if_pos hpar]
        exact ih _ _ _ (good_append_one h (.group _ _ (ih (some ')') _ [] (by simp))))
      case neg =>
      rw [if_neg hpar]
      by_cases hbrc : curr = '\x7b'
      case pos =>
        rw [if_pos hbrc]
        exact ih _ _ _ (good_append_one h (.block _ _ (ih (some '\x7d') _ [] (by simp))))
      case neg =>
      rw [if_neg hbrc]
      by_cases hbrk : curr = '['
      case pos =>
        rw [if_pos hbrk]
        exact ih _ _ _ (good_append_one h (.tuple _ _ (ih (some ']') _ [] (by simp))))
      case neg =>
      rw [if_neg hbrk]
      exact ih _ _ _ h

/-- Every node of a parsed tree satisfies the format-arity invariant, for any
document and any grammar whose explicit definitions do. -/
theorem parse_formatArityOk (source : Document) (g : Grammar) (hgd : GrammarDefsOk g)
    (fuel lineOffset : Nat) :
    FormatArityOk (parse source g fuel lineOffset).result := by
  unfold parse
  refine .root _ _ ?_
  intro n hn
  exact parseBlockLoop_good g hgd source.content fuel none ⟨0, lineOffset, []⟩ [] (by simp) n hn

set_option maxHeartbeats 1000000 in
/-- C4: parsing the interpolated string document under the arithmetic grammar
yields one format node with strings = ["x ", " y"] and a single value group
holding add(1, 1); and in every tree returned by parse (any document, any
grammar whose defined-token factories keep the invariant), every format node
has exactly one more literal segment than value groups. -/
theorem C4_interpolation :
    parse ⟨"test", "$\"x $\x7b1+1\x7d y\"".data⟩ arith 1000 =
      { errors := none,
        result := .root
          [.format ["x ", " y"]
            [[.invocation (.ident "add" ⟨0, 7, 1⟩)
                [.number (.num 1) ⟨0, 6, 1⟩, .number (.num 1) ⟨0, 8, 1⟩]
                none ⟨0, 7, 1⟩]]
            ⟨0, 0, 1⟩]
          ⟨0, 0, 1⟩ } ∧
    ∀ (source : Document) (g : Grammar) (fuel lineOffset : Nat),
      GrammarDefsOk g → FormatArityOk (parse source g fuel lineOffset).result :=
  ⟨rfl, fun source g fuel lineOffset hgd => parse_formatArityOk source g hgd fuel lineOffset⟩

/-- C4 witness: the invariant statement applied to the arithmetic grammar
(which has no explicit definitions, so its side condition holds vacuously)
on the interpolated-string document. -/
theorem C4_interpolation_witness :
    FormatArityOk (parse ⟨"w", "$\"x $\x7b1+1\x7d y\"".data⟩ arith 1000 0).result :=
  C4_interpolation.2 ⟨"w", "$\"x $\x7b1+1\x7d y\"".data⟩ arith 1000 0
    (by
      intro p hp
      rw [show arith.definitionLookup = [] from rfl] at hp
      exact absurd hp (List.not_mem_nil p))

/-- The validation sweep never deletes a non-separator node: every
non-separator element of the input sequence (operator and label_op nodes
included) is still in the swept sequence. -/
theorem cleanupLoop_keeps_nonseparators :
    ∀ (first : Bool) (l : List Node) (errors : List Diagnostic) (n : Node),
      n ∈ l → n.kind ≠ "separator" → n ∈ (cleanupLoop first l errors).1 := by
  intro first l errors
  induction first, l, errors using cleanupLoop.induct with
  | case1 x errors => simp
  | case2 first t rest errors hcond ih =>
    intro n hn hk
    rw [cleanupLoop.eq_def]
    simp only [hcond, if_true]
    rcases List.mem_cons.mp hn with rfl | hn
    · exact absurd (by simpa using hcond : _ ∧ _).2 hk
    · exact ih n hn hk
  | case3 first t errors hcond hkind =>
    intro n hn hk
    rw [cleanupLoop.eq_def]
    simp [hcond, hkind]
    simpa using hn
  | case4 first t errors hcond hkind p ps hsep e1 ns es heq ih =>
    intro n hn hk
    rw [cleanupLoop.eq_def]
    simp only [hcond, hkind, hsep, heq, if_true, if_false, ite_true, ite_false, reduceIte]
    rw [heq] at ih
    simp only [decide_False, Bool.and_false, Bool.false_eq_true, if_false, reduceIte,
      ne_eq, hkind, not_false_eq_true, if_true, ite_true]
    rcases List.mem_cons.mp hn with rfl | hn
    · simp
    · rcases List.mem_cons.mp hn with rfl | hn
      · exact absurd hsep hk
      · exact List.mem_cons_of_mem _ (ih n hn hk)
  | case5 first t errors hcond hkind p ps hsep e1 e2 ns es heq ih =>
    intro n hn hk
    rw [cleanupLoop.eq_def]
    rw [heq] at ih
    simp only [hcond, hkind, hsep, heq, if_true, if_false, ite_true, ite_false, reduceIte,
      decide_False, Bool.and_false, Bool.false_eq_true, ne_eq, not_false_eq_true]
    rcases List.mem_cons.mp hn with rfl | hn
    · simp
    · exact List.mem_cons_of_mem _ (ih n hn hk)
  | case6 first t rest errors hcond hkind ns es heq ih =>
    intro n hn hk
    rw [cleanupLoop.eq_def]
    rw [heq] at ih
    simp only [Bool.not_eq_true] at hcond
    simp only [hcond, hkind, heq, if_true, if_false, ite_true, ite_false, reduceIte,
      Bool.false_eq_true, ne_eq, not_not, Decidable.not_not]
    rcases List.mem_cons.mp hn with rfl | hn
    · exact absurd (by simpa using hkind) hk
    · exact List.mem_cons_of_mem _ (ih n hn hk)

/-- Inside any string (either quote style), the escape sequence
backslash-doublequote appends the double-quote character to the value and
scanning continues two characters further. -/
theorem scanString_escape_quote (content : List Char) (interp : ScanState → List Node × ScanState)
    (fuel : Nat) (template : Bool) (termc : Char) (st : ScanState)
    (value : String) (strs : List String) (vals : List (List Node))
    (h0 : charAt content st.index = some '\\')
    (h1 : charAt content (st.index + 1) = some '"') :
    scanString content interp (fuel + 1) template termc st value strs vals =
      scanString content interp fuel template termc
        { st with index := st.index + 2 } (value ++ "\"") strs vals := by
  have hlt : (content.length ≤ st.index + 1) = False := by
    simp [Nat.not_le.mpr (lt_length_of_charAt h1)]
  have hm : matchesAt content st.index ['$', '\x7b'] = false :=
    matchesAt_head_ne h0 (by decide)
  have hesc : escString (charAt content (st.index + 1)) = "\"" := by
    rw [h1]
    simp [escString]
  rw [scanString.eq_def]
  simp only [h0, hm, hlt, hesc, Bool.and_false, Bool.false_eq_true, if_false, reduceIte,
    if_true, ite_true, if_pos rfl]

/-- C2 amended: the cleanup sweep emits diagnostics but does not remove the
offending nodes. In general every non-separator node of the swept sequence
survives the sweep (first conjunct); concretely, "+ 1" keeps its operator
node next to the "Unexpected token" and "Unexpected operator" diagnostics,
"a:" leaves a `label_op` node with no diagnostic at all (the trailing-node
break skips every check), and "a\n:" leaves a strong separator node (a
separator directly following another separator is out of reach of the
sweep's deletions once the first one is removed). -/
theorem C2_amended :
    (∀ (first : Bool) (l : List Node) (errors : List Diagnostic) (n : Node),
      n ∈ l → n.kind ≠ "separator" → n ∈ (cleanupLoop first l errors).1) ∧
    parse ⟨"test", "+ 1".data⟩ arith 1000 =
      { errors := some [⟨"Unexpected token, expected \",\"", ⟨0, 2, 1⟩⟩,
                        ⟨"Unexpected operator", ⟨0, 0, 1⟩⟩],
        result := .root [.operator "+" ⟨0, 0, 1⟩, .number (.num 1) ⟨0, 2, 1⟩] ⟨0, 0, 1⟩ } ∧
    parse ⟨"test", "a:".data⟩ arith 1000 =
      { errors := none,
        result := .root [.labelOp "a" ⟨0, 0, 1⟩] ⟨0, 0, 1⟩ } ∧
    parse ⟨"test", "a\n:".data⟩ arith 1000 =
      { errors := none,
        result := .root [.ident "a" ⟨0, 0, 1⟩, .separator true ⟨1, 2, 1⟩] ⟨0, 0, 1⟩ } :=
  ⟨cleanupLoop_keeps_nonseparators, rfl, rfl, rfl⟩

/-- C2 amended witness: the survival statement applied to the unresolved
operator node of the "+ 1" token sequence. -/
theorem C2_amended_witness :
    (Node.operator "+" ⟨0, 0, 1⟩) ∈
      (cleanupLoop true [.operator "+" ⟨0, 0, 1⟩, .number (.num 1) ⟨0, 2, 1⟩] []).1 :=
  C2_amended.1 true [.operator "+" ⟨0, 0, 1⟩, .number (.num 1) ⟨0, 2, 1⟩] []
    (.operator "+" ⟨0, 0, 1⟩) (by simp) (by decide)

/-- C6 amended: the scanner processes backslash escapes for backslash, n, r,
t and the double-quote character regardless of the string's own quote. In
general, backslash-doublequote appends a double quote to the value in any
string (first conjunct); concretely, `\"` yields a quote both in "-quoted
and '-quoted strings, while `\'` inside a '-quoted string contributes
nothing (but also does not terminate the string). -/
theorem C6_amended :
    (∀ (content : List Char) (interp : ScanState → List Node × ScanState)
       (fuel : Nat) (template : Bool) (termc : Char) (st : ScanState)
       (value : String) (strs : List String) (vals : List (List Node)),
      charAt content st.index = some '\\' →
      charAt content (st.index + 1) = some '"' →
      scanString content interp (fuel + 1) template termc st value strs vals =
        scanString content interp fuel template termc
          { st with index := st.index + 2 } (value ++ "\"") strs vals) ∧
    parse ⟨"test", "'a\\'b'".data⟩ arith 1000 =
      { errors := none, result := .root [.str "ab" false ⟨0, 0, 1⟩] ⟨0, 0, 1⟩ } ∧
    parse ⟨"test", "\"a\\\"b\"".data⟩ arith 1000 =
      { errors := none, result := .root [.str "a\"b" false ⟨0, 0, 1⟩] ⟨0, 0, 1⟩ } ∧
    parse ⟨"test", "'a\\\"b'".data⟩ arith 1000 =
      { errors := none, result := .root [.str "a\"b" false ⟨0, 0, 1⟩] ⟨0, 0, 1⟩ } :=
  ⟨fun content interp fuel template termc st value strs vals h0 h1 =>
      scanString_escape_quote content interp fuel template termc st value strs vals h0 h1,
    rfl, rfl, rfl⟩

/-- C6 amended witness: the quote-escape statement applied inside the
concrete '-quoted literal containing backslash-doublequote. -/
theorem C6_amended_witness :
    scanString "'a\\\"b'".data (fun s => ([], s)) (0 + 1) false '\'' ⟨2, 0, []⟩ "a" [] [] =
      scanString "'a\\\"b'".data (fun s => ([], s)) 0 false '\'' ⟨4, 0, []⟩ ("a" ++ "\"") [] [] :=
  C6_amended.1 "'a\\\"b'".data (fun s => ([], s)) 0 false '\'' ⟨2, 0, []⟩ "a" [] []
    (by decide) (by decide)

end Gekr
